import Mathlib

/-!
Verification of the Setrixtui autoplay bot core (src/autoplay.rs).

Embedding conventions:
* Grids are flat lists of naturals indexed by y * gw + x; 0 is empty and
  1..6 are color identifiers (the source stores u8 values, color + 1).
* f32 scores are modelled as rationals, and the f32 NEG_INFINITY start
  score of the search as the bottom element of WithBot.
* Rotation states are the four discrete orientations (Fin 4); the source
  stores them in a u8 that only ever holds 0..3.
* External collaborators (the live-board collision predicate
  can_place_with_frozen, the composite score of a candidate after drop,
  stamp, settle and evaluate, the piece geometry capability and the
  GRAIN_SCALE constant) are parameters of the embedded functions.
* The source loops that are not structurally bounded (the rotation
  emission loop and the flood-fill worklist loop) receive a structural
  fuel argument; lemmas below show the fuel always suffices.
-/

namespace Setrix

/-- The primitive commands of the external input layer that the bot emits. -/
inductive Action where
  | RotateCw
  | MoveLeft
  | MoveRight
  | HardDrop
  deriving DecidableEq

/-- The clockwise rotation emission loop of build_actions: while r differs
from the target rotation, emit one RotateCw and advance r := (r + 1) % 4.
Rotations live in Fin 4 so the loop stops within 4 steps; the fuel of 4
makes the recursion structural. -/
def rotLoop : ℕ → Fin 4 → Fin 4 → List Action
  | 0, _, _ => []
  | fuel + 1, r, target =>
      if r = target then [] else Action.RotateCw :: rotLoop fuel (r + 1) target

def rotActions (cur target : Fin 4) : List Action :=
  rotLoop 4 cur target

/-- build_actions: rotations, then lateral moves, then one hard drop.
gs is the external GRAIN_SCALE constant; lateral steps use the Rust i32
division (truncation toward zero, Int.tdiv). -/
def build_actions (gs : ℕ) (cur_rot target_rot : Fin 4) (cur_gx target_gx : ℤ) :
    List Action :=
  let rots := rotActions cur_rot target_rot
  let diff := target_gx - cur_gx
  let steps := diff.tdiv (gs : ℤ)
  let lats :=
    if steps < 0 then List.replicate steps.natAbs Action.MoveLeft
    else List.replicate steps.toNat Action.MoveRight
  rots ++ lats ++ [Action.HardDrop]

/-- The search record of Bot::find_best_move. -/
structure MoveCandidate where
  score : WithBot ℚ
  rotation : Fin 4
  target_gx : ℤ
  initial_gx : ℤ
  deriving DecidableEq

/-- The column steps min_step..=max_step with bw = gw / GRAIN_SCALE,
min_step = -bw - 1 and max_step = bw + 1, in ascending order. -/
def stepList (bw : ℕ) : List ℤ :=
  (List.range (2 * bw + 3)).map (fun i => (i : ℤ) - ((bw : ℤ) + 1))

/-- The quick bounds reject of the enumerator:
target_gx < -(GRAIN_SCALE * 2) or target_gx > gw + GRAIN_SCALE. -/
def boundsReject (gs gw : ℕ) (target_gx : ℤ) : Bool :=
  decide (target_gx < -((gs : ℤ) * 2)) || decide ((gw : ℤ) + (gs : ℤ) < target_gx)

/-- One iteration of the inner column loop of Bot::find_best_move.
feas abstracts the external live-board predicate can_place_with_frozen at
spawn height; sc abstracts the composite candidate score (hard drop on the
snapshot, stamp, settle_sand, evaluate), which is a function of the tried
rotation and target column. -/
def considerStep (gs gw : ℕ) (feas : Fin 4 → ℤ → Bool) (sc : Fin 4 → ℤ → ℚ)
    (initial_gx : ℤ) (r : Fin 4) (best : MoveCandidate) (step : ℤ) : MoveCandidate :=
  let target_gx := initial_gx + step * (gs : ℤ)
  if boundsReject gs gw target_gx then best
  else if feas r target_gx then
    if best.score < (sc r target_gx : WithBot ℚ) then
      ⟨(sc r target_gx : WithBot ℚ), r, target_gx, initial_gx⟩
    else best
  else best

/-- The full enumeration fold of Bot::find_best_move: rotations 0..4 outer,
column steps inner, starting from the NEG_INFINITY candidate that keeps the
initial column and rotation 0. -/
def bestCandidate (gs gw : ℕ) (feas : Fin 4 → ℤ → Bool) (sc : Fin 4 → ℤ → ℚ)
    (initial_gx : ℤ) : MoveCandidate :=
  (List.finRange 4).foldl
    (fun best r => (stepList (gw / gs)).foldl (considerStep gs gw feas sc initial_gx r) best)
    ⟨⊥, 0, initial_gx, initial_gx⟩

/-- Bot::find_best_move: empty plan when no piece is active, otherwise the
action sequence realizing the best candidate. The piece argument carries the
current rotation and grain column of the active piece, when present. -/
def find_best_move (gs gw : ℕ) (piece : Option (Fin 4 × ℤ))
    (feas : Fin 4 → ℤ → Bool) (sc : Fin 4 → ℤ → ℚ) : List Action :=
  match piece with
  | none => []
  | some p =>
      let best := bestCandidate gs gw feas sc p.2
      build_actions gs p.1 best.rotation best.initial_gx best.target_gx

/-- The strict-improvement update of the search, on an already guard-filtered
candidate (rotation, target column). -/
def selStep (sc : Fin 4 → ℤ → ℚ) (gx : ℤ) (b : MoveCandidate) (c : Fin 4 × ℤ) :
    MoveCandidate :=
  if b.score < (sc c.1 c.2 : WithBot ℚ) then ⟨(sc c.1 c.2 : WithBot ℚ), c.1, c.2, gx⟩ else b

/-- The candidates that survive both guards (bounds reject and feasibility at
spawn), in enumeration order: rotation-major, then ascending column step. -/
def candList (gs gw : ℕ) (feas : Fin 4 → ℤ → Bool) (initial_gx : ℤ) :
    List (Fin 4 × ℤ) :=
  ((List.finRange 4).map (fun r =>
    (stepList (gw / gs)).filterMap (fun step =>
      if boundsReject gs gw (initial_gx + step * (gs : ℤ)) = false ∧
          feas r (initial_gx + step * (gs : ℤ)) = true then
        some (r, initial_gx + step * (gs : ℤ))
      else none))).flatten

/-- A piece pose during the hard-drop descent: the per-block grain origin
cells at vertical offset zero, and the current vertical grain position. -/
structure DropPiece where
  cells : List (ℤ × ℤ)
  gy : ℤ

/-- Modelled from the spec: the external piece-geometry capability (the set
of per-block grain origin coordinates the current pose occupies). Shape,
rotation and horizontal offset are folded into the stored cells, which are
fixed during the descent; the origins translate one-for-one with the
vertical grain position gy. -/
def cell_grain_origins (p : DropPiece) : List (ℤ × ℤ) :=
  p.cells.map (fun c => (c.1, c.2 + p.gy))

/-- can_place_on_grid: every grain cell of the piece must be horizontally in
range, above the bottom (gy < gh), and empty when on the grid (rows above
the top are allowed). gs is the external GRAIN_SCALE constant. -/
def can_place_on_grid (grid : List ℕ) (gw gh gs : ℕ) (p : DropPiece) : Bool :=
  (cell_grain_origins p).all (fun o =>
    (List.range gs).all (fun dy =>
      (List.range gs).all (fun dx =>
        let gx := o.1 + (dx : ℤ)
        let gy := o.2 + (dy : ℤ)
        if gx < 0 ∨ (gw : ℤ) ≤ gx ∨ (gh : ℤ) ≤ gy then false
        else if gy < 0 then true
        else decide (grid.getD (gy.toNat * gw + gx.toNat) 0 = 0))))

abbrev Pos := ℕ × ℕ

/-- Flat-grid cell read: grid[y * gw + x], empty (0) out of range. -/
def gridGet (grid : List ℕ) (gw : ℕ) (p : Pos) : ℕ :=
  grid.getD (p.2 * gw + p.1) 0

def NEIGHBOURS_8 : List (ℤ × ℤ) :=
  [(-1, -1), (-1, 0), (-1, 1), (0, -1), (0, 1), (1, -1), (1, 0), (1, 1)]

/-- One neighbour inspection of the flood fill: bounds check, color check,
visited check, then insert into the visited set and push onto the stack. -/
def pushNeighbour (grid : List ℕ) (gw gh color : ℕ) (x y : ℕ)
    (st : List Pos × List Pos) (d : ℤ × ℤ) : List Pos × List Pos :=
  let nx : ℤ := (x : ℤ) + d.1
  let ny : ℤ := (y : ℤ) + d.2
  if 0 ≤ nx ∧ nx < (gw : ℤ) ∧ 0 ≤ ny ∧ ny < (gh : ℤ) then
    let np : Pos := (nx.toNat, ny.toNat)
    if gridGet grid gw np = color ∧ np ∉ st.1 then (np :: st.1, np :: st.2) else st
  else st

/-- The worklist loop of count_spanning_clears: pop a cell, record whether it
touches the right edge, push its unvisited same-color neighbours. The list
head is the stack top, matching the Vec push/pop of the source. -/
def floodLoop (grid : List ℕ) (gw gh color : ℕ) :
    ℕ → List Pos → List Pos → Bool → List Pos × Bool
  | 0, visited, _, tr => (visited, tr)
  | _ + 1, visited, [], tr => (visited, tr)
  | fuel + 1, visited, p :: rest, tr =>
      let tr2 := tr || decide (p.1 = gw - 1)
      let st := NEIGHBOURS_8.foldl (pushNeighbour grid gw gh color p.1 p.2) (visited, rest)
      floodLoop grid gw gh color fuel st.1 st.2 tr2

/-- Fuel bound for the flood loop: every loop iteration strictly decreases
twice the number of unvisited in-range cells plus the stack length. -/
def floodFuel (gw gh : ℕ) : ℕ := 2 * (gw * gh) + 1

/-- One flood fill from an unvisited start cell of the current color. -/
def floodFrom (grid : List ℕ) (gw gh color : ℕ) (start : Pos) (visited : List Pos) :
    List Pos × Bool :=
  floodLoop grid gw gh color (floodFuel gw gh) (start :: visited) [start] false

/-- The per-color pass of count_spanning_clears: flood from every unvisited
cell of the color in column 0, counting the components that touch the right
edge. The state carries the visited set shared across colors and the running
clear count. -/
def colorClears (grid : List ℕ) (gw gh color : ℕ) (st : List Pos × ℕ) :
    List Pos × ℕ :=
  (List.range gh).foldl
    (fun st start_y =>
      if gridGet grid gw (0, start_y) = color ∧ (0, start_y) ∉ st.1 then
        ((floodFrom grid gw gh color (0, start_y) st.1).1,
          st.2 + if (floodFrom grid gw gh color (0, start_y) st.1).2 then 1 else 0)
      else st)
    st

/-- count_spanning_clears: colors 1..=6 in order, shared visited state. -/
def count_spanning_clears (grid : List ℕ) (gw gh : ℕ) : ℕ :=
  ((List.range 6).foldl (fun st i => colorClears grid gw gh (i + 1) st) ([], 0)).2

/-- One cell step of a settle pass, on the in-place mutated grid paired with
the moved flag. Mirrors the straight-down, diagonal-left, diagonal-right
cascade of settle_sand, including the pass-parity preference when both
diagonals are free. -/
def settleCell (gw : ℕ) (left_first : Bool) (y x : ℕ) (st : List ℕ × Bool) :
    List ℕ × Bool :=
  let g := st.1
  let idx := y * gw + x
  let c := g.getD idx 0
  if c = 0 then st
  else
    let below := (y + 1) * gw + x
    if g.getD below 0 = 0 then ((g.set below c).set idx 0, true)
    else
      let can_left := decide (0 < x) && decide (g.getD ((y + 1) * gw + x - 1) 0 = 0)
      let can_right := decide (x + 1 < gw) && decide (g.getD ((y + 1) * gw + x + 1) 0 = 0)
      let go_left := if can_left && can_right then left_first else can_left
      if go_left then ((g.set ((y + 1) * gw + x - 1) c).set idx 0, true)
      else if can_right then ((g.set ((y + 1) * gw + x + 1) c).set idx 0, true)
      else st

/-- One row scan of a settle pass, columns left to right. -/
def settleRow (gw : ℕ) (left_first : Bool) (y : ℕ) (st : List ℕ × Bool) :
    List ℕ × Bool :=
  (List.range gw).foldl (fun st x => settleCell gw left_first y x st) st

/-- One full settle pass: rows from bottom-most movable row up to the top. -/
def settlePass (gw gh : ℕ) (left_first : Bool) (g : List ℕ) : List ℕ × Bool :=
  ((List.range (gh - 1)).reverse).foldl (fun st y => settleRow gw left_first y st) (g, false)

/-- The pass loop of settle_sand: up to the fuel's number of passes, stopping
early when a pass moves nothing; pass parity selects the preferred diagonal. -/
def settlePasses (gw gh : ℕ) : ℕ → ℕ → List ℕ → List ℕ
  | _, 0, g => g
  | pass, fuel + 1, g =>
      let pr := settlePass gw gh (decide (pass % 2 = 0)) g
      if pr.2 then settlePasses gw gh (pass + 1) fuel pr.1 else pr.1

/-- settle_sand: at most 80 passes starting at pass 0. -/
def settle_sand (grid : List ℕ) (gw gh : ℕ) : List ℕ :=
  settlePasses gw gh 0 80 grid

/-- Observer of the same pass loop reporting whether the simulation stopped
by the early break (some pass moved zero grains) rather than the pass cap. -/
def settleConverges (gw gh : ℕ) : ℕ → ℕ → List ℕ → Bool
  | _, 0, _ => false
  | pass, fuel + 1, g =>
      let pr := settlePass gw gh (decide (pass % 2 = 0)) g
      if pr.2 then settleConverges gw gh (pass + 1) fuel pr.1 else true

/-- Whether settle_sand's run on this grid converges within the 80-pass cap. -/
def settleConvergesTop (grid : List ℕ) (gw gh : ℕ) : Bool :=
  settleConverges gw gh 0 80 grid

/-- A cell from which no grain movement is possible: empty, or blocked below
and on both lower diagonals. A settle pass moves nothing exactly on grids
whose every cell above the bottom row is stable. -/
def cellStable (grid : List ℕ) (gw : ℕ) (y x : ℕ) : Prop :=
  grid.getD (y * gw + x) 0 = 0 ∨
    (grid.getD ((y + 1) * gw + x) 0 ≠ 0 ∧
      ¬(0 < x ∧ grid.getD ((y + 1) * gw + x - 1) 0 = 0) ∧
      ¬(x + 1 < gw ∧ grid.getD ((y + 1) * gw + x + 1) 0 = 0))

def stableGrid (grid : List ℕ) (gw gh : ℕ) : Prop :=
  ∀ y, y < gh - 1 → ∀ x, x < gw → cellStable grid gw y x

/-- Number of occupied (nonzero) cells of a grid. -/
def occupiedCount (g : List ℕ) : ℕ :=
  g.countP (fun c => decide (c ≠ 0))

/-- All cell coordinates in the row-major scan order of the evaluator. -/
def allCellsList (gw gh : ℕ) : List Pos :=
  ((List.range gh).map (fun y => (List.range gw).map (fun x => (x, y)))).flatten

/-- Per-column scan of the evaluator: height (grid height minus the row of
the topmost occupied cell, 0 for an empty column) and number of holes (empty
cells strictly below the top). -/
def colScan (grid : List ℕ) (gw gh x : ℕ) : ℕ × ℕ :=
  let r := (List.range gh).foldl
    (fun (st : ℕ × ℕ × Bool) y =>
      if grid.getD (y * gw + x) 0 ≠ 0 then
        if st.2.2 then st else (gh - y, st.2.1, true)
      else
        if st.2.2 then (st.1, st.2.1 + 1, st.2.2) else st)
    (0, 0, false)
  (r.1, r.2.1)

def colHeights (grid : List ℕ) (gw gh : ℕ) : List ℕ :=
  (List.range gw).map (fun x => (colScan grid gw gh x).1)

def holesCount (grid : List ℕ) (gw gh : ℕ) : ℕ :=
  ((List.range gw).map (fun x => (colScan grid gw gh x).2)).sum

def maxColHeight (grid : List ℕ) (gw gh : ℕ) : ℕ :=
  (colHeights grid gw gh).foldr max 0

def aggHeight (grid : List ℕ) (gw gh : ℕ) : ℕ :=
  (colHeights grid gw gh).sum

def bumpiness (grid : List ℕ) (gw gh : ℕ) : ℕ :=
  (((colHeights grid gw gh).zip (colHeights grid gw gh).tail).map
    (fun ab => ((ab.1 : ℤ) - (ab.2 : ℤ)).natAbs)).sum

def hAdjCount (grid : List ℕ) (gw gh : ℕ) : ℕ :=
  ((allCellsList gw gh).map (fun p =>
    if gridGet grid gw p ≠ 0 ∧ p.1 + 1 < gw ∧ gridGet grid gw (p.1 + 1, p.2) = gridGet grid gw p
    then 1 else 0)).sum

def vAdjCount (grid : List ℕ) (gw gh : ℕ) : ℕ :=
  ((allCellsList gw gh).map (fun p =>
    if gridGet grid gw p ≠ 0 ∧ p.2 + 1 < gh ∧ gridGet grid gw (p.1, p.2 + 1) = gridGet grid gw p
    then 1 else 0)).sum

/-- same_color_proximity: cells of the placed color value counted once per
occupied horizontal neighbour of the same value. -/
def same_color_proximity (grid : List ℕ) (gw gh color_val : ℕ) : ℕ :=
  ((allCellsList gw gh).map (fun p =>
    (if gridGet grid gw p = color_val ∧ 0 < p.1 ∧ gridGet grid gw (p.1 - 1, p.2) = color_val
      then 1 else 0) +
    (if gridGet grid gw p = color_val ∧ p.1 + 1 < gw ∧ gridGet grid gw (p.1 + 1, p.2) = color_val
      then 1 else 0))).sum

/-- One cell step of the min-column, max-column and count scan of
color_reach_bonus. -/
def colorScanUpd (grid : List ℕ) (gw color : ℕ) (st : ℕ × ℕ × ℕ) (p : Pos) : ℕ × ℕ × ℕ :=
  if gridGet grid gw p = color then
    (if p.1 < st.1 then p.1 else st.1,
     if st.2.1 < p.1 then p.1 else st.2.1,
     st.2.2 + 1)
  else st

/-- The min-column, max-column and count scan of color_reach_bonus, with
min_x initialized to gw and max_x to 0. -/
def colorScan (grid : List ℕ) (gw gh color : ℕ) : ℕ × ℕ × ℕ :=
  (allCellsList gw gh).foldl (colorScanUpd grid gw color) (gw, 0, 0)

/-- The contribution of one color to color_reach_bonus. -/
def colorReachTerm (grid : List ℕ) (gw gh : ℕ) (base_reach : ℚ) (color : ℕ) : ℚ :=
  let s := colorScan grid gw gh color
  if s.2.2 = 0 ∨ s.2.1 ≤ s.1 then 0
  else
    let reach : ℕ := s.2.1 - s.1
    let ratio : ℚ := (reach : ℚ) / (gw : ℚ)
    (if 1 / 2 < ratio then (ratio - 1 / 2) * base_reach else 0) +
    (if s.1 = 0 ∧ s.2.1 = gw - 1 then base_reach * 0.75 else 0) +
    (if s.1 = 0 then ratio * (base_reach * 0.125) else 0) +
    (if s.2.1 = gw - 1 then ratio * (base_reach * 0.125) else 0)

def color_reach_bonus (grid : List ℕ) (gw gh : ℕ) (base_reach : ℚ) : ℚ :=
  ((List.range 6).map (fun i => colorReachTerm grid gw gh base_reach (i + 1))).sum

/-- All evaluator terms except the danger penalty, with the source weights. -/
def evalCore (grid : List ℕ) (gw gh placed_color : ℕ) : ℚ :=
  let placed_val := placed_color + 1
  (count_spanning_clears grid gw gh : ℚ) * 50.0
    - (holesCount grid gw gh : ℚ) * 8.0
    - (maxColHeight grid gw gh : ℚ) * 3.5
    - (aggHeight grid gw gh : ℚ) * 0.15
    - (bumpiness grid gw gh : ℚ) * 1.5
    + (hAdjCount grid gw gh : ℚ) * 0.8
    + (vAdjCount grid gw gh : ℚ) * 0.2
    + (same_color_proximity grid gw gh placed_val : ℚ) * 0.5
    + color_reach_bonus grid gw gh 5.0

/-- evaluate: all weighted terms, danger penalty last, triggered when the max
column height exceeds gh - 10 (saturating subtraction, as in the source). -/
def evaluate (grid : List ℕ) (gw gh placed_color : ℕ) : ℚ :=
  evalCore grid gw gh placed_color -
    (if gh - 10 < maxColHeight grid gw gh then 100.0 else 0)

/-- One 8-neighbour step of same-color connectivity: q is a NEIGHBOURS_8
translate of p, in range, of the given color. -/
def AdjStep (grid : List ℕ) (gw gh color : ℕ) (p q : Pos) : Prop :=
  (∃ d ∈ NEIGHBOURS_8, (q.1 : ℤ) = (p.1 : ℤ) + d.1 ∧ (q.2 : ℤ) = (p.2 : ℤ) + d.2) ∧
    q.1 < gw ∧ q.2 < gh ∧ gridGet grid gw q = color

/-- Same-color 8-connectivity from a start cell. -/
def Conn (grid : List ℕ) (gw gh color : ℕ) (s p : Pos) : Prop :=
  Relation.ReflTransGen (AdjStep grid gw gh color) s p

/-- A visited set that is a union of whole components: closed under taking
same-color in-range neighbours. -/
def ClosedSet (grid : List ℕ) (gw gh : ℕ) (v : List Pos) : Prop :=
  ∀ p ∈ v, ∀ q : Pos, AdjStep grid gw gh (gridGet grid gw p) p q → q ∈ v

def BoundedSet (gw gh : ℕ) (v : List Pos) : Prop :=
  ∀ p ∈ v, p.1 < gw ∧ p.2 < gh

/-- Number of in-range cells not yet in the visited list; the flood-loop
termination measure is twice this plus the stack length. -/
def unvis (gw gh : ℕ) (v : List Pos) : ℕ :=
  ((Finset.range gw ×ˢ Finset.range gh).filter (fun p => p ∉ v)).card

/-- Concrete grids for the danger-threshold scenario: width 2, height 10;
the first has a single grain at column 0 of the bottom row (tallest column
height 1 = gh - 9), the second is empty (tallest column height 0). -/
def c8grid1 : List ℕ := (List.replicate 20 0).set 18 1

def c8grid2 : List ℕ := List.replicate 20 0

/-! ### Generic list lemmas -/

theorem foldl_const {α β : Type*} (f : β → α → β) (l : List α) (b : β)
    (h : ∀ b x, x ∈ l → f b x = b) : l.foldl f b = b := by
  induction l generalizing b with
  | nil => rfl
  | cons a t ih =>
      rw [List.foldl_cons, h b a (by simp)]
      exact ih b (fun b x hx => h b x (by simp [hx]))

/-! ### The rotation loop -/

theorem rotActions_eq :
    ∀ cur target : Fin 4,
      rotActions cur target =
        List.replicate ((target.val + 4 - cur.val) % 4) Action.RotateCw := by
  decide

/-- Claim C2: for rotations in 0..4 and a target column a whole number of
blocks away, build_actions emits exactly (target - cur) mod 4 clockwise
rotations, then |block difference| lateral moves all in one direction
(MoveLeft exactly when the target is further left), terminated by exactly
one HardDrop; when target equals current rotation and column the output is
the single HardDrop. -/
theorem c2_build_actions_shape (gs : ℕ) (hgs : 0 < gs) (cur tgt : Fin 4) (cur_gx k : ℤ) :
    build_actions gs cur tgt cur_gx (cur_gx + k * (gs : ℤ)) =
      List.replicate ((tgt.val + 4 - cur.val) % 4) Action.RotateCw ++
        List.replicate k.natAbs (if k < 0 then Action.MoveLeft else Action.MoveRight) ++
        [Action.HardDrop] ∧
    build_actions gs cur cur cur_gx cur_gx = [Action.HardDrop] := by
  have hgz : (gs : ℤ) ≠ 0 := by exact_mod_cast hgs.ne'
  constructor
  · have hdiff : cur_gx + k * (gs : ℤ) - cur_gx = k * (gs : ℤ) := by ring
    have hdv : (k * (gs : ℤ)).tdiv (gs : ℤ) = k := Int.mul_tdiv_cancel _ hgz
    simp only [build_actions, hdiff, hdv, rotActions_eq]
    by_cases hk : k < 0
    · simp [hk]
    · have hnn : k.toNat = k.natAbs := by omega
      simp [hk, hnn]
  · have h0 : (cur.val + 4 - cur.val) % 4 = 0 := by omega
    simp only [build_actions, Int.sub_self, Int.zero_tdiv, rotActions_eq, h0]
    simp

theorem c2_witness :
    (0 : ℕ) < 2 ∧
      build_actions 2 1 3 5 (5 + (-2) * ((2 : ℕ) : ℤ)) =
        List.replicate (((3 : Fin 4).val + 4 - (1 : Fin 4).val) % 4) Action.RotateCw ++
          List.replicate (-2 : ℤ).natAbs
            (if (-2 : ℤ) < 0 then Action.MoveLeft else Action.MoveRight) ++
          [Action.HardDrop] :=
  ⟨by decide, (c2_build_actions_shape 2 (by decide) 1 3 5 (-2)).1⟩

/-- Claim C9: with no active piece the planner returns the empty action
sequence, whatever the abstracted playfield feasibility predicate and
candidate scores are. -/
theorem c9_no_piece_empty_plan (gs gw : ℕ) (feas : Fin 4 → ℤ → Bool)
    (sc : Fin 4 → ℤ → ℚ) :
    find_best_move gs gw none feas sc = [] := rfl

/-! ### The fallback candidate -/

theorem considerStep_skip (gs gw : ℕ) (feas : Fin 4 → ℤ → Bool) (sc : Fin 4 → ℤ → ℚ)
    (initial_gx : ℤ) (r : Fin 4) (b : MoveCandidate) (step : ℤ)
    (h : boundsReject gs gw (initial_gx + step * (gs : ℤ)) = true ∨
      feas r (initial_gx + step * (gs : ℤ)) = false) :
    considerStep gs gw feas sc initial_gx r b step = b := by
  unfold considerStep
  rcases h with h | h <;> simp [h]

theorem bestCandidate_of_all_rejected (gs gw : ℕ) (feas : Fin 4 → ℤ → Bool)
    (sc : Fin 4 → ℤ → ℚ) (gx : ℤ)
    (hrej : ∀ r : Fin 4, ∀ step ∈ stepList (gw / gs),
      boundsReject gs gw (gx + step * (gs : ℤ)) = true ∨
        feas r (gx + step * (gs : ℤ)) = false) :
    bestCandidate gs gw feas sc gx = ⟨⊥, 0, gx, gx⟩ := by
  unfold bestCandidate
  apply foldl_const
  intro b r _
  apply foldl_const
  intro b' step hstep
  exact considerStep_skip gs gw feas sc gx r b' step (hrej r step hstep)

/-- Claim C1 (amended): if no candidate is ever accepted, the emitted plan
keeps the original column but targets rotation 0 (the initialization of the
best candidate), so it consists of the clockwise rotations from the current
rotation to rotation 0 followed by a single hard drop; it is just a hard
drop exactly when the current rotation is already 0. -/
theorem c1_fallback_rotation_zero (gs gw : ℕ) (rot : Fin 4) (gx : ℤ)
    (feas : Fin 4 → ℤ → Bool) (sc : Fin 4 → ℤ → ℚ)
    (hrej : ∀ r : Fin 4, ∀ step ∈ stepList (gw / gs),
      boundsReject gs gw (gx + step * (gs : ℤ)) = true ∨
        feas r (gx + step * (gs : ℤ)) = false) :
    find_best_move gs gw (some (rot, gx)) feas sc =
      List.replicate ((4 - rot.val) % 4) Action.RotateCw ++ [Action.HardDrop] := by
  have h0 : ((0 : Fin 4).val + 4 - rot.val) % 4 = (4 - rot.val) % 4 := by
    have := rot.isLt
    omega
  simp only [find_best_move, bestCandidate_of_all_rejected gs gw feas sc gx hrej,
    build_actions, rotActions_eq, Int.sub_self, Int.zero_tdiv, h0]
  simp

theorem c1_witness :
    (∀ r : Fin 4, ∀ step ∈ stepList (1 / 1),
      boundsReject 1 1 ((0 : ℤ) + step * ((1 : ℕ) : ℤ)) = true ∨
        (fun (_ : Fin 4) (_ : ℤ) => false) r ((0 : ℤ) + step * ((1 : ℕ) : ℤ)) = false) ∧
    find_best_move 1 1 (some ((2 : Fin 4), 0)) (fun _ _ => false) (fun _ _ => 0) =
      List.replicate ((4 - (2 : Fin 4).val) % 4) Action.RotateCw ++ [Action.HardDrop] :=
  ⟨by decide,
   c1_fallback_rotation_zero 1 1 2 0 (fun _ _ => false) (fun _ _ => 0) (by decide)⟩

/-- Claim C1 counterexample: with every candidate rejected and the piece in
rotation state 1, the fallback plan is three clockwise rotations (driving
the rotation to 0, not keeping the original rotation) followed by the hard
drop — not the single hard drop the claim asserts for nonzero poses. -/
theorem c1_counterexample :
    find_best_move 1 1 (some ((1 : Fin 4), 0)) (fun _ _ => false) (fun _ _ => 0) =
      [Action.RotateCw, Action.RotateCw, Action.RotateCw, Action.HardDrop] ∧
    find_best_move 1 1 (some ((1 : Fin 4), 0)) (fun _ _ => false) (fun _ _ => 0) ≠
      [Action.HardDrop] := by
  decide

/-! ### Hard-drop descent termination -/

theorem can_place_on_grid_false_of_low (grid : List ℕ) (gw gh gs : ℕ) (hgs : 0 < gs)
    (p : DropPiece) (c : ℤ × ℤ) (hc : c ∈ p.cells) (h : (gh : ℤ) ≤ c.2 + p.gy) :
    can_place_on_grid grid gw gh gs p = false := by
  unfold can_place_on_grid cell_grain_origins
  rw [List.all_eq_false]
  refine ⟨(c.1, c.2 + p.gy), List.mem_map_of_mem _ hc, ?_⟩
  rw [Bool.not_eq_true, List.all_eq_false]
  refine ⟨0, List.mem_range.mpr hgs, ?_⟩
  rw [Bool.not_eq_true, List.all_eq_false]
  refine ⟨0, List.mem_range.mpr hgs, ?_⟩
  rw [Bool.not_eq_true]
  simp only []
  rw [if_pos]
  exact Or.inr (Or.inr (by push_cast; omega))

/-- Claim C10: the hard-drop descent loop terminates exactly when the piece
has at least one grain cell: with a nonempty cell set, some tested vertical
position (bounded by the grid height plus the piece's vertical extent) makes
can_place_on_grid false; with an empty cell set, can_place_on_grid is true
at every vertical position, so the descent loop would never stop. -/
theorem c10_drop_termination (grid : List ℕ) (gw gh gs : ℕ) (cells : List (ℤ × ℤ))
    (hgs : 0 < gs) :
    (cells ≠ [] →
      ∃ n : ℕ, n ≤ gh + ((cells.map (fun c => c.2.natAbs)).foldr max 0) ∧
        can_place_on_grid grid gw gh gs ⟨cells, (n : ℤ) + 1⟩ = false) ∧
    (cells = [] → ∀ gy : ℤ, can_place_on_grid grid gw gh gs ⟨cells, gy⟩ = true) := by
  constructor
  · intro hne
    cases cells with
    | nil => exact absurd rfl hne
    | cons c0 t =>
        refine ⟨gh + c0.2.natAbs, ?_, ?_⟩
        · have hle : c0.2.natAbs ≤
              (((c0 :: t).map (fun c => c.2.natAbs)).foldr max 0) := by
            rw [List.map_cons, List.foldr_cons]
            exact le_max_left _ _
          omega
        · apply can_place_on_grid_false_of_low grid gw gh gs hgs _ c0 (by simp)
          dsimp only
          omega
  · intro hnil gy
    subst hnil
    rfl

theorem c10_witness :
    (0 : ℕ) < 1 ∧
      (∃ n : ℕ, n ≤ 1 + (([((0 : ℤ), (0 : ℤ))].map (fun c => c.2.natAbs)).foldr max 0) ∧
        can_place_on_grid [0] 1 1 1 ⟨[((0 : ℤ), (0 : ℤ))], (n : ℤ) + 1⟩ = false) ∧
      (∀ gy : ℤ, can_place_on_grid [0] 1 1 1 ⟨[], gy⟩ = true) :=
  ⟨by decide,
   (c10_drop_termination [0] 1 1 1 [((0 : ℤ), (0 : ℤ))] (by decide)).1 (by decide),
   (c10_drop_termination [0] 1 1 1 [] (by decide)).2 rfl⟩

/-! ### Selection order of the search -/

theorem foldl_ext {α β : Type*} (f g : β → α → β) (l : List α)
    (h : ∀ b a, a ∈ l → f b a = g b a) : ∀ b, l.foldl f b = l.foldl g b := by
  induction l with
  | nil => intro b; rfl
  | cons a t ih =>
      intro b
      rw [List.foldl_cons, List.foldl_cons, h b a (by simp)]
      exact ih (fun b x hx => h b x (by simp [hx])) _

theorem foldl_filterMap_eq {α β γ : Type*} (h : α → Option β) (g : γ → β → γ) :
    ∀ (l : List α) (b : γ),
      (l.filterMap h).foldl g b = l.foldl (fun b x => (h x).elim b (g b)) b := by
  intro l
  induction l with
  | nil => intro b; rfl
  | cons a t ih =>
      intro b
      rw [List.filterMap_cons]
      cases hx : h a with
      | none => simp only [hx, List.foldl_cons, ih, Option.elim_none]
      | some c => simp only [hx, List.foldl_cons, ih, Option.elim_some]

theorem foldl_flatten_map {α β γ : Type*} (f : α → List β) (g : γ → β → γ) :
    ∀ (l : List α) (b : γ),
      ((l.map f).flatten).foldl g b = l.foldl (fun b a => (f a).foldl g b) b := by
  intro l
  induction l with
  | nil => intro b; rfl
  | cons a t ih =>
      intro b
      rw [List.map_cons, List.flatten_cons, List.foldl_append, List.foldl_cons, ih]

theorem considerStep_eq_match (gs gw : ℕ) (feas : Fin 4 → ℤ → Bool)
    (sc : Fin 4 → ℤ → ℚ) (gx : ℤ) (r : Fin 4) (b : MoveCandidate) (step : ℤ) :
    considerStep gs gw feas sc gx r b step =
      ((if boundsReject gs gw (gx + step * (gs : ℤ)) = false ∧
            feas r (gx + step * (gs : ℤ)) = true then
          some (r, gx + step * (gs : ℤ)) else none : Option (Fin 4 × ℤ)).elim
        b (selStep sc gx b)) := by
  cases hb : boundsReject gs gw (gx + step * (gs : ℤ)) <;>
    cases hf : feas r (gx + step * (gs : ℤ)) <;>
      simp [hb, hf, considerStep, selStep]

theorem bestCandidate_eq_selLoop (gs gw : ℕ) (feas : Fin 4 → ℤ → Bool)
    (sc : Fin 4 → ℤ → ℚ) (gx : ℤ) :
    bestCandidate gs gw feas sc gx =
      (candList gs gw feas gx).foldl (selStep sc gx) ⟨⊥, 0, gx, gx⟩ := by
  unfold bestCandidate candList
  rw [foldl_flatten_map]
  refine foldl_ext _ _ _ ?_ _
  intro b r _
  rw [foldl_filterMap_eq]
  refine foldl_ext _ _ _ ?_ _
  intro b' step _
  exact considerStep_eq_match gs gw feas sc gx r b' step

theorem selStep_argmax (sc : Fin 4 → ℤ → ℚ) (gx : ℤ) :
    ∀ (L : List (Fin 4 × ℤ)) (b : MoveCandidate),
      (L.foldl (selStep sc gx) b = b ∧
        ∀ c ∈ L, (sc c.1 c.2 : WithBot ℚ) ≤ b.score) ∨
      (∃ i : ℕ, ∃ hi : i < L.length,
        L.foldl (selStep sc gx) b =
          ⟨(sc L[i].1 L[i].2 : WithBot ℚ), L[i].1, L[i].2, gx⟩ ∧
        b.score < (sc L[i].1 L[i].2 : WithBot ℚ) ∧
        (∀ j, ∀ hj : j < L.length,
          (sc L[j].1 L[j].2 : WithBot ℚ) ≤ (sc L[i].1 L[i].2 : WithBot ℚ)) ∧
        (∀ j, ∀ hj : j < L.length, j < i →
          (sc L[j].1 L[j].2 : WithBot ℚ) < (sc L[i].1 L[i].2 : WithBot ℚ))) := by
  intro L
  induction L with
  | nil =>
      intro b
      left
      exact ⟨rfl, by simp⟩
  | cons a t ih =>
      intro b
      rw [List.foldl_cons]
      by_cases ha : b.score < (sc a.1 a.2 : WithBot ℚ)
      · have hsel : selStep sc gx b a = ⟨(sc a.1 a.2 : WithBot ℚ), a.1, a.2, gx⟩ := by
          unfold selStep
          rw [if_pos ha]
        rw [hsel]
        rcases ih ⟨(sc a.1 a.2 : WithBot ℚ), a.1, a.2, gx⟩ with
          ⟨heq, hall⟩ | ⟨i, hi, heq, hlt, hmax, hstrict⟩
        · right
          refine ⟨0, by simp, ?_, ?_, ?_, ?_⟩
          · simpa using heq
          · simpa using ha
          · intro j hj
            cases j with
            | zero => simp
            | succ j' =>
                have hj' : j' < t.length := by simpa using hj
                have hmem : t[j'] ∈ t := List.getElem_mem hj'
                simpa using hall _ hmem
          · intro j hj hj0
            omega
        · right
          refine ⟨i + 1, by simpa using Nat.succ_lt_succ hi, ?_, ?_, ?_, ?_⟩
          · simpa using heq
          · calc b.score < (sc a.1 a.2 : WithBot ℚ) := ha
              _ < _ := by simpa using hlt
          · intro j hj
            cases j with
            | zero =>
                have hlt' : (sc a.1 a.2 : WithBot ℚ) < (sc t[i].1 t[i].2 : WithBot ℚ) := by
                  simpa using hlt
                simpa using hlt'.le
            | succ j' =>
                have hj' : j' < t.length := by simpa using hj
                simpa using hmax j' hj'
          · intro j hj hji
            cases j with
            | zero => simpa using hlt
            | succ j' =>
                have hj' : j' < t.length := by simpa using hj
                have hj'i : j' < i := by omega
                simpa using hstrict j' hj' hj'i
      · have hsel : selStep sc gx b a = b := by
          unfold selStep
          rw [if_neg ha]
        rw [hsel]
        rcases ih b with ⟨heq, hall⟩ | ⟨i, hi, heq, hlt, hmax, hstrict⟩
        · left
          refine ⟨heq, ?_⟩
          intro c hc
          rcases List.mem_cons.mp hc with rfl | hc'
          · exact not_lt.mp ha
          · exact hall c hc'
        · right
          refine ⟨i + 1, by simpa using Nat.succ_lt_succ hi, ?_, ?_, ?_, ?_⟩
          · simpa using heq
          · simpa using hlt
          · intro j hj
            cases j with
            | zero =>
                have h0 : (sc a.1 a.2 : WithBot ℚ) ≤ b.score := not_lt.mp ha
                have hlt' : (sc a.1 a.2 : WithBot ℚ) < (sc t[i].1 t[i].2 : WithBot ℚ) :=
                  lt_of_le_of_lt h0 (by simpa using hlt)
                simpa using hlt'.le
            | succ j' =>
                have hj' : j' < t.length := by simpa using hj
                simpa using hmax j' hj'
          · intro j hj hji
            cases j with
            | zero =>
                have h0 : (sc a.1 a.2 : WithBot ℚ) ≤ b.score := not_lt.mp ha
                have hlt' := lt_of_le_of_lt h0 (by simpa using hlt :
                  b.score < (sc t[i].1 t[i].2 : WithBot ℚ))
                simpa using hlt'
            | succ j' =>
                have hj' : j' < t.length := by simpa using hj
                have hj'i : j' < i := by omega
                simpa using hstrict j' hj' hj'i

/-- Claim C7: the search replaces the incumbent best only when the new
candidate's score strictly exceeds it, so the selected candidate is the
earliest, in enumeration order (rotation-major over the four rotations, then
ascending column step), among all surviving candidates attaining the maximum
score. -/
theorem c7_first_max_selected (gs gw : ℕ) (feas : Fin 4 → ℤ → Bool)
    (sc : Fin 4 → ℤ → ℚ) (gx : ℤ)
    (hne : candList gs gw feas gx ≠ []) :
    ∃ i : ℕ, ∃ hi : i < (candList gs gw feas gx).length,
      bestCandidate gs gw feas sc gx =
        ⟨(sc (candList gs gw feas gx)[i].1 (candList gs gw feas gx)[i].2 : WithBot ℚ),
          (candList gs gw feas gx)[i].1, (candList gs gw feas gx)[i].2, gx⟩ ∧
      (∀ j, ∀ hj : j < (candList gs gw feas gx).length,
        (sc (candList gs gw feas gx)[j].1 (candList gs gw feas gx)[j].2 : WithBot ℚ) ≤
          (sc (candList gs gw feas gx)[i].1 (candList gs gw feas gx)[i].2 : WithBot ℚ)) ∧
      (∀ j, ∀ hj : j < (candList gs gw feas gx).length, j < i →
        (sc (candList gs gw feas gx)[j].1 (candList gs gw feas gx)[j].2 : WithBot ℚ) <
          (sc (candList gs gw feas gx)[i].1 (candList gs gw feas gx)[i].2 : WithBot ℚ)) := by
  rw [bestCandidate_eq_selLoop]
  rcases selStep_argmax sc gx (candList gs gw feas gx) ⟨⊥, 0, gx, gx⟩ with
    ⟨heq, hall⟩ | ⟨i, hi, heq, hlt, hmax, hstrict⟩
  · obtain ⟨c, hc⟩ := List.exists_mem_of_ne_nil _ hne
    exact absurd (hall c hc) (by simp)
  · exact ⟨i, hi, heq, hmax, hstrict⟩

theorem c7_witness :
    candList 1 2 (fun _ _ => true) 0 ≠ [] ∧
      (∃ i : ℕ, ∃ hi : i < (candList 1 2 (fun _ _ => true) 0).length,
        bestCandidate 1 2 (fun _ _ => true) (fun _ _ => (0 : ℚ)) 0 =
          ⟨((0 : ℚ) : WithBot ℚ), (candList 1 2 (fun _ _ => true) 0)[i].1,
            (candList 1 2 (fun _ _ => true) 0)[i].2, 0⟩ ∧
        (∀ j, ∀ _hj : j < (candList 1 2 (fun _ _ => true) 0).length,
          (((0 : ℚ) : WithBot ℚ)) ≤ (((0 : ℚ) : WithBot ℚ))) ∧
        (∀ j, ∀ _hj : j < (candList 1 2 (fun _ _ => true) 0).length, j < i →
          (((0 : ℚ) : WithBot ℚ)) < (((0 : ℚ) : WithBot ℚ)))) :=
  ⟨by decide, c7_first_max_selected 1 2 (fun _ _ => true) (fun _ _ => (0 : ℚ)) 0 (by decide)⟩

/-! ### The settle simulator -/

theorem getD_of_lt (l : List ℕ) (i : ℕ) (h : i < l.length) : l.getD i 0 = l[i] := by
  rw [List.getD_eq_getElem?_getD, List.getElem?_eq_getElem h, Option.getD_some]

theorem idx_lt (gw gh x y : ℕ) (hx : x < gw) (hy : y < gh) : y * gw + x < gw * gh := by
  have h2 : (y + 1) * gw = y * gw + gw := by ring
  have h3 : (y + 1) * gw ≤ gh * gw := Nat.mul_le_mul_right gw hy
  have h4 : gh * gw = gw * gh := Nat.mul_comm gh gw
  omega

theorem countP_set_eq (p : ℕ → Bool) :
    ∀ (l : List ℕ) (i : ℕ) (x : ℕ) (h : i < l.length),
      (l.set i x).countP p + (if p l[i] then 1 else 0) =
        l.countP p + (if p x then 1 else 0) := by
  intro l
  induction l with
  | nil => intro i x h; simp at h
  | cons a t ih =>
      intro i x h
      cases i with
      | zero =>
          simp only [List.set_cons_zero, List.countP_cons, List.getElem_cons_zero]
          omega
      | succ i' =>
          have h' : i' < t.length := by simpa using h
          have hih := ih i' x h'
          simp only [List.set_cons_succ, List.countP_cons, List.getElem_cons_succ]
          omega

theorem occupiedCount_move (g : List ℕ) (src tgt : ℕ)
    (hsrc : src < g.length) (htgt : tgt < g.length) (hne : src ≠ tgt)
    (hcne : g.getD src 0 ≠ 0) (hem : g.getD tgt 0 = 0) :
    occupiedCount ((g.set tgt (g.getD src 0)).set src 0) = occupiedCount g := by
  have e1 : g[tgt] = 0 := by rw [← getD_of_lt g tgt htgt]; exact hem
  have e3 : g[src] = g.getD src 0 := (getD_of_lt g src hsrc).symm
  have hsrc1 : src < (g.set tgt (g.getD src 0)).length := by simpa using hsrc
  have e2 : (g.set tgt (g.getD src 0))[src] = g[src] :=
    List.getElem_set_ne (fun he => hne he.symm) hsrc1
  have h1 := countP_set_eq (fun c => decide (c ≠ 0)) g tgt (g.getD src 0) htgt
  have h2 := countP_set_eq (fun c => decide (c ≠ 0)) (g.set tgt (g.getD src 0)) src 0 hsrc1
  rw [e1] at h1
  rw [e2, e3] at h2
  have hcne' := hcne
  simp only [List.getD_eq_getElem?_getD] at hcne'
  simp [hcne'] at h1 h2
  unfold occupiedCount
  simp only [ne_eq, decide_not, List.getD_eq_getElem?_getD]
  omega

/-- The exhaustive shape of one settleCell step: either the cell stays (and
is stable), or one grain moves from the cell to an empty target below,
diagonally below-left, or diagonally below-right. -/
theorem settleCell_cases (gw : ℕ) (lf : Bool) (y x : ℕ) (st : List ℕ × Bool) :
    (settleCell gw lf y x st = st ∧ cellStable st.1 gw y x) ∨
      ∃ tgt : ℕ,
        (tgt = (y + 1) * gw + x ∨ (0 < x ∧ tgt = (y + 1) * gw + x - 1) ∨
          (x + 1 < gw ∧ tgt = (y + 1) * gw + x + 1)) ∧
        st.1.getD tgt 0 = 0 ∧ st.1.getD (y * gw + x) 0 ≠ 0 ∧
        settleCell gw lf y x st =
          ((st.1.set tgt (st.1.getD (y * gw + x) 0)).set (y * gw + x) 0, true) := by
  by_cases h0 : st.1.getD (y * gw + x) 0 = 0
  · have h0' := h0
    simp only [List.getD_eq_getElem?_getD] at h0'
    exact Or.inl ⟨by simp [settleCell, h0'], Or.inl h0⟩
  have h0' := h0
  simp only [List.getD_eq_getElem?_getD] at h0'
  by_cases hb : st.1.getD ((y + 1) * gw + x) 0 = 0
  · have hb' := hb
    simp only [List.getD_eq_getElem?_getD] at hb'
    exact Or.inr ⟨(y + 1) * gw + x, Or.inl rfl, hb, h0, by simp [settleCell, h0', hb']⟩
  have hb' := hb
  simp only [List.getD_eq_getElem?_getD] at hb'
  by_cases hcl : 0 < x ∧ st.1.getD ((y + 1) * gw + x - 1) 0 = 0
  · have hcl' := hcl
    simp only [List.getD_eq_getElem?_getD] at hcl'
    by_cases hcr : x + 1 < gw ∧ st.1.getD ((y + 1) * gw + x + 1) 0 = 0
    · have hcr' := hcr
      simp only [List.getD_eq_getElem?_getD] at hcr'
      cases hlf : lf
      · exact Or.inr ⟨(y + 1) * gw + x + 1, Or.inr (Or.inr ⟨hcr.1, rfl⟩), hcr.2, h0,
          by simp [settleCell, h0', hb', hcl', hcr', hlf]⟩
      · exact Or.inr ⟨(y + 1) * gw + x - 1, Or.inr (Or.inl ⟨hcl.1, rfl⟩), hcl.2, h0,
          by simp [settleCell, h0', hb', hcl', hcr', hlf]⟩
    · have hcr' := hcr
      simp only [List.getD_eq_getElem?_getD] at hcr'
      exact Or.inr ⟨(y + 1) * gw + x - 1, Or.inr (Or.inl ⟨hcl.1, rfl⟩), hcl.2, h0,
        by simp [settleCell, h0', hb', hcl', hcr']⟩
  · have hcl' := hcl
    simp only [List.getD_eq_getElem?_getD] at hcl'
    by_cases hcr : x + 1 < gw ∧ st.1.getD ((y + 1) * gw + x + 1) 0 = 0
    · have hcr' := hcr
      simp only [List.getD_eq_getElem?_getD] at hcr'
      exact Or.inr ⟨(y + 1) * gw + x + 1, Or.inr (Or.inr ⟨hcr.1, rfl⟩), hcr.2, h0,
        by simp [settleCell, h0', hb', hcl', hcr']⟩
    · have hcr' := hcr
      simp only [List.getD_eq_getElem?_getD] at hcr'
      exact Or.inl ⟨by simp [settleCell, h0', hb', hcl', hcr'], Or.inr ⟨hb, hcl, hcr⟩⟩

theorem settleCell_conserves (gw gh : ℕ) (lf : Bool) (y x : ℕ)
    (hx : x < gw) (hy : y + 1 < gh) (st : List ℕ × Bool)
    (hlen : st.1.length = gw * gh) :
    (settleCell gw lf y x st).1.length = gw * gh ∧
      occupiedCount (settleCell gw lf y x st).1 = occupiedCount st.1 := by
  rcases settleCell_cases gw lf y x st with ⟨heq, _⟩ | ⟨tgt, htgt, hem, hocc, heq⟩
  · rw [heq]
    exact ⟨hlen, rfl⟩
  · rw [heq]
    have hgw : 0 < gw := by omega
    have hidx : y * gw + x < st.1.length := by
      rw [hlen]
      exact idx_lt gw gh x y hx (by omega)
    have he : (y + 1) * gw = y * gw + gw := by ring
    have htgt_lt : tgt < st.1.length := by
      rw [hlen]
      rcases htgt with rfl | ⟨hx0, rfl⟩ | ⟨hx1, rfl⟩
      · exact idx_lt gw gh x (y + 1) hx hy
      · have h5 := idx_lt gw gh (x - 1) (y + 1) (by omega) hy
        omega
      · exact idx_lt gw gh (x + 1) (y + 1) hx1 hy
    have hne : y * gw + x ≠ tgt := by
      rcases htgt with rfl | ⟨hx0, rfl⟩ | ⟨hx1, rfl⟩ <;> omega
    constructor
    · simp [hlen]
    · exact occupiedCount_move st.1 (y * gw + x) tgt hidx htgt_lt hne hocc hem

theorem settleFold_conserves (gw gh : ℕ) (lf : Bool) (y : ℕ) (hy : y + 1 < gh) :
    ∀ (xs : List ℕ), (∀ x ∈ xs, x < gw) →
      ∀ (st : List ℕ × Bool), st.1.length = gw * gh →
        ((xs.foldl (fun st x => settleCell gw lf y x st) st).1.length = gw * gh ∧
          occupiedCount (xs.foldl (fun st x => settleCell gw lf y x st) st).1 =
            occupiedCount st.1) := by
  intro xs
  induction xs with
  | nil => intro _ st h; exact ⟨h, rfl⟩
  | cons a t ih =>
      intro hmem st hlen
      rw [List.foldl_cons]
      have hc := settleCell_conserves gw gh lf y a (hmem a (by simp)) hy st hlen
      have ih' := ih (fun x hx => hmem x (by simp [hx])) (settleCell gw lf y a st) hc.1
      exact ⟨ih'.1, by rw [ih'.2, hc.2]⟩

theorem settleRows_conserves (gw gh : ℕ) (lf : Bool) :
    ∀ (ys : List ℕ), (∀ y ∈ ys, y < gh - 1) →
      ∀ (st : List ℕ × Bool), st.1.length = gw * gh →
        ((ys.foldl (fun st y => settleRow gw lf y st) st).1.length = gw * gh ∧
          occupiedCount (ys.foldl (fun st y => settleRow gw lf y st) st).1 =
            occupiedCount st.1) := by
  intro ys
  induction ys with
  | nil => intro _ st h; exact ⟨h, rfl⟩
  | cons a t ih =>
      intro hmem st hlen
      rw [List.foldl_cons]
      have ha := hmem a (by simp)
      have hc := settleFold_conserves gw gh lf a (by omega) (List.range gw)
        (fun x hx => List.mem_range.mp hx) st hlen
      have ih' := ih (fun y hy => hmem y (by simp [hy])) (settleRow gw lf a st) hc.1
      exact ⟨ih'.1, by rw [ih'.2]; exact hc.2⟩

theorem settlePass_conserves (gw gh : ℕ) (lf : Bool) (g : List ℕ)
    (hlen : g.length = gw * gh) :
    (settlePass gw gh lf g).1.length = gw * gh ∧
      occupiedCount (settlePass gw gh lf g).1 = occupiedCount g := by
  unfold settlePass
  exact settleRows_conserves gw gh lf ((List.range (gh - 1)).reverse)
    (fun y hy => List.mem_range.mp (List.mem_reverse.mp hy)) (g, false) hlen

theorem settlePasses_conserves (gw gh : ℕ) :
    ∀ (fuel pass : ℕ) (g : List ℕ), g.length = gw * gh →
      ((settlePasses gw gh pass fuel g).length = gw * gh ∧
        occupiedCount (settlePasses gw gh pass fuel g) = occupiedCount g) := by
  intro fuel
  induction fuel with
  | zero => intro pass g h; exact ⟨h, rfl⟩
  | succ fuel ih =>
      intro pass g hlen
      simp only [settlePasses]
      have hp := settlePass_conserves gw gh (decide (pass % 2 = 0)) g hlen
      by_cases hm : (settlePass gw gh (decide (pass % 2 = 0)) g).2 = true
      · simp only [hm, if_true]
        have hr := ih (pass + 1) (settlePass gw gh (decide (pass % 2 = 0)) g).1 hp.1
        exact ⟨hr.1, by rw [hr.2, hp.2]⟩
      · simp only [Bool.not_eq_true] at hm
        simp only [hm, if_false]
        exact hp

/-- Claim C4: the settle simulator conserves the number of occupied cells:
whatever the grid dimensions, the settled output has exactly as many nonzero
cells as the input. -/
theorem c4_settle_conserves_grains (grid : List ℕ) (gw gh : ℕ)
    (hlen : grid.length = gw * gh) :
    occupiedCount (settle_sand grid gw gh) = occupiedCount grid :=
  (settlePasses_conserves gw gh 80 0 grid hlen).2

theorem c4_witness :
    ([1, 0, 0, 0] : List ℕ).length = 2 * 2 ∧
      occupiedCount (settle_sand [1, 0, 0, 0] 2 2) = occupiedCount [1, 0, 0, 0] :=
  ⟨rfl, c4_settle_conserves_grains [1, 0, 0, 0] 2 2 rfl⟩

/-! ### Settle convergence and idempotence -/

theorem foldl_fix {α β : Type*} (f : β → α → β) (b : β) :
    ∀ (l : List α), (∀ x ∈ l, f b x = b) → l.foldl f b = b := by
  intro l
  induction l with
  | nil => intro _; rfl
  | cons a t ih =>
      intro h
      rw [List.foldl_cons, h a (by simp)]
      exact ih (fun x hx => h x (by simp [hx]))

theorem settleCell_of_stable (gw : ℕ) (lf : Bool) (y x : ℕ) (st : List ℕ × Bool)
    (h : cellStable st.1 gw y x) : settleCell gw lf y x st = st := by
  rcases settleCell_cases gw lf y x st with ⟨heq, _⟩ | ⟨tgt, htgt, hem, hocc, _⟩
  · exact heq
  · exfalso
    rcases h with h0 | ⟨hb, hl, hr⟩
    · exact hocc h0
    · rcases htgt with rfl | ⟨hx0, rfl⟩ | ⟨hx1, rfl⟩
      · exact hb hem
      · exact hl ⟨hx0, hem⟩
      · exact hr ⟨hx1, hem⟩

theorem settleRow_of_stable (gw : ℕ) (lf : Bool) (y : ℕ) (g : List ℕ) (m : Bool)
    (h : ∀ x, x < gw → cellStable g gw y x) :
    settleRow gw lf y (g, m) = (g, m) := by
  unfold settleRow
  exact foldl_fix _ (g, m) (List.range gw)
    (fun x hx => settleCell_of_stable gw lf y x (g, m) (h x (List.mem_range.mp hx)))

theorem settlePass_of_stable (gw gh : ℕ) (lf : Bool) (g : List ℕ)
    (h : stableGrid g gw gh) : settlePass gw gh lf g = (g, false) := by
  unfold settlePass
  exact foldl_fix _ (g, false) ((List.range (gh - 1)).reverse)
    (fun y hy => settleRow_of_stable gw lf y g false
      (fun x hx => h y (List.mem_range.mp (List.mem_reverse.mp hy)) x hx))

theorem settleCell_flag_true (gw : ℕ) (lf : Bool) (y x : ℕ) (g : List ℕ) :
    (settleCell gw lf y x (g, true)).2 = true := by
  rcases settleCell_cases gw lf y x (g, true) with ⟨heq, _⟩ | ⟨tgt, _, _, _, heq⟩ <;>
    rw [heq]

theorem settleFold_flag_true (gw : ℕ) (lf : Bool) (y : ℕ) :
    ∀ (xs : List ℕ) (g : List ℕ),
      (xs.foldl (fun st x => settleCell gw lf y x st) (g, true)).2 = true := by
  intro xs
  induction xs with
  | nil => intro g; rfl
  | cons a t ih =>
      intro g
      rw [List.foldl_cons]
      rcases hsc : settleCell gw lf y a (g, true) with ⟨g2, m2⟩
      have hm2 : m2 = true := by
        have := settleCell_flag_true gw lf y a g
        rw [hsc] at this
        exact this
      rw [hm2]
      exact ih g2

theorem settleCell_flag_false (gw : ℕ) (lf : Bool) (y x : ℕ) (st : List ℕ × Bool)
    (h : (settleCell gw lf y x st).2 = false) :
    settleCell gw lf y x st = st ∧ cellStable st.1 gw y x := by
  rcases settleCell_cases gw lf y x st with ⟨heq, hs⟩ | ⟨tgt, _, _, _, heq⟩
  · exact ⟨heq, hs⟩
  · rw [heq] at h
    exact absurd h (by simp)

theorem settleFold_flag_false (gw : ℕ) (lf : Bool) (y : ℕ) :
    ∀ (xs : List ℕ) (g : List ℕ),
      (xs.foldl (fun st x => settleCell gw lf y x st) (g, false)).2 = false →
      xs.foldl (fun st x => settleCell gw lf y x st) (g, false) = (g, false) ∧
        ∀ x ∈ xs, cellStable g gw y x := by
  intro xs
  induction xs with
  | nil => intro g _; exact ⟨rfl, by simp⟩
  | cons a t ih =>
      intro g h
      rw [List.foldl_cons] at h ⊢
      rcases hsc : settleCell gw lf y a (g, false) with ⟨g2, m2⟩
      rw [hsc] at h
      cases m2 with
      | true =>
          rw [settleFold_flag_true gw lf y t g2] at h
          exact absurd h (by simp)
      | false =>
          have hc := settleCell_flag_false gw lf y a (g, false) (by rw [hsc])
          have hg2 : g2 = g := by
            rw [hsc] at hc
            exact congrArg Prod.fst hc.1
          subst hg2
          obtain ⟨hfold, hstab⟩ := ih g2 h
          refine ⟨hfold, ?_⟩
          intro x hx
          rcases List.mem_cons.mp hx with rfl | hx'
          · exact hc.2
          · exact hstab x hx'

theorem settleRowFold_flag_true (gw : ℕ) (lf : Bool) :
    ∀ (ys : List ℕ) (g : List ℕ),
      (ys.foldl (fun st y => settleRow gw lf y st) (g, true)).2 = true := by
  intro ys
  induction ys with
  | nil => intro g; rfl
  | cons a t ih =>
      intro g
      rw [List.foldl_cons]
      rcases hsr : settleRow gw lf a (g, true) with ⟨g2, m2⟩
      have hm2 : m2 = true := by
        have h2 : (settleRow gw lf a (g, true)).2 = true := settleFold_flag_true gw lf a _ g
        rw [hsr] at h2
        exact h2
      rw [hm2]
      exact ih g2

theorem settleRowFold_flag_false (gw : ℕ) (lf : Bool) :
    ∀ (ys : List ℕ) (g : List ℕ),
      (ys.foldl (fun st y => settleRow gw lf y st) (g, false)).2 = false →
      ys.foldl (fun st y => settleRow gw lf y st) (g, false) = (g, false) ∧
        ∀ y ∈ ys, ∀ x, x < gw → cellStable g gw y x := by
  intro ys
  induction ys with
  | nil => intro g _; exact ⟨rfl, by simp⟩
  | cons a t ih =>
      intro g h
      rw [List.foldl_cons] at h ⊢
      rcases hsr : settleRow gw lf a (g, false) with ⟨g2, m2⟩
      rw [hsr] at h
      cases m2 with
      | true =>
          rw [settleRowFold_flag_true gw lf t g2] at h
          exact absurd h (by simp)
      | false =>
          have hrf : (settleRow gw lf a (g, false)).2 = false := by rw [hsr]
          obtain ⟨hfold, hstab⟩ := settleFold_flag_false gw lf a (List.range gw) g hrf
          have hg2 : g2 = g := by
            have : settleRow gw lf a (g, false) = (g, false) := hfold
            rw [hsr] at this
            exact congrArg Prod.fst this
          subst hg2
          obtain ⟨hfold2, hstab2⟩ := ih g2 h
          refine ⟨hfold2, ?_⟩
          intro y hy x hx
          rcases List.mem_cons.mp hy with rfl | hy'
          · exact hstab x (List.mem_range.mpr hx)
          · exact hstab2 y hy' x hx

theorem settlePass_flag_false (gw gh : ℕ) (lf : Bool) (g : List ℕ)
    (h : (settlePass gw gh lf g).2 = false) :
    (settlePass gw gh lf g).1 = g ∧ stableGrid g gw gh := by
  unfold settlePass at h ⊢
  obtain ⟨hfold, hstab⟩ :=
    settleRowFold_flag_false gw lf ((List.range (gh - 1)).reverse) g h
  refine ⟨by rw [hfold], ?_⟩
  intro y hy x hx
  exact hstab y (List.mem_reverse.mpr (List.mem_range.mpr hy)) x hx

theorem settlePasses_stable_of_converges (gw gh : ℕ) :
    ∀ (fuel pass : ℕ) (g : List ℕ),
      settleConverges gw gh pass fuel g = true →
      stableGrid (settlePasses gw gh pass fuel g) gw gh := by
  intro fuel
  induction fuel with
  | zero =>
      intro pass g h
      exact absurd h (by simp [settleConverges])
  | succ fuel ih =>
      intro pass g h
      simp only [settleConverges] at h
      simp only [settlePasses]
      rcases hp : settlePass gw gh (decide (pass % 2 = 0)) g with ⟨g2, m2⟩
      rw [hp] at h
      cases m2 with
      | true =>
          simp only [if_true] at h ⊢
          exact ih (pass + 1) g2 h
      | false =>
          simp only [Bool.false_eq_true, if_false]
          have hpf := settlePass_flag_false gw gh (decide (pass % 2 = 0)) g (by rw [hp])
          rw [hp] at hpf
          have hg2 : g2 = g := hpf.1
          subst hg2
          exact hpf.2

theorem settlePasses_of_stable (gw gh : ℕ) (pass fuel : ℕ) (g : List ℕ)
    (h : stableGrid g gw gh) : settlePasses gw gh pass (fuel + 1) g = g := by
  rw [settlePasses]
  rw [settlePass_of_stable gw gh (decide (pass % 2 = 0)) g h]
  simp

theorem settle_sand_of_stable (gw gh : ℕ) (g : List ℕ) (h : stableGrid g gw gh) :
    settle_sand g gw gh = g :=
  settlePasses_of_stable gw gh 0 79 g h

/-- Claim C5: whenever the settle simulation converges within its 80-pass cap
(some pass moves zero grains), the simulator's output is a fixed point: a
second run of settle_sand on the output changes nothing. -/
theorem c5_settle_idempotent_once_converged (grid : List ℕ) (gw gh : ℕ)
    (h : settleConvergesTop grid gw gh = true) :
    settle_sand (settle_sand grid gw gh) gw gh = settle_sand grid gw gh := by
  have hs : stableGrid (settle_sand grid gw gh) gw gh :=
    settlePasses_stable_of_converges gw gh 80 0 grid h
  exact settle_sand_of_stable gw gh _ hs

theorem c5_witness :
    settleConvergesTop [1, 0] 1 2 = true ∧
      settle_sand (settle_sand [1, 0] 1 2) 1 2 = settle_sand [1, 0] 1 2 :=
  ⟨by decide, c5_settle_idempotent_once_converged [1, 0] 1 2 (by decide)⟩

/-! ### Flood fill: connectivity basics -/

theorem adjStep_symm_dir (p q : Pos)
    (h : ∃ d ∈ NEIGHBOURS_8, (q.1 : ℤ) = (p.1 : ℤ) + d.1 ∧ (q.2 : ℤ) = (p.2 : ℤ) + d.2) :
    ∃ d ∈ NEIGHBOURS_8, (p.1 : ℤ) = (q.1 : ℤ) + d.1 ∧ (p.2 : ℤ) = (q.2 : ℤ) + d.2 := by
  obtain ⟨d, hd, h1, h2⟩ := h
  have hmem : ((-d.1, -d.2) : ℤ × ℤ) ∈ NEIGHBOURS_8 := by
    fin_cases hd <;> decide
  refine ⟨(-d.1, -d.2), hmem, ?_, ?_⟩
  · dsimp only
    omega
  · dsimp only
    omega

theorem adjStep_symm (grid : List ℕ) (gw gh color : ℕ) (p q : Pos)
    (hp : p.1 < gw ∧ p.2 < gh ∧ gridGet grid gw p = color)
    (h : AdjStep grid gw gh color p q) : AdjStep grid gw gh color q p := by
  obtain ⟨hd, _, _, _⟩ := h
  exact ⟨adjStep_symm_dir p q hd, hp.1, hp.2.1, hp.2.2⟩

theorem conn_props (grid : List ℕ) (gw gh color : ℕ) (s p : Pos)
    (hs : s.1 < gw ∧ s.2 < gh ∧ gridGet grid gw s = color)
    (h : Conn grid gw gh color s p) :
    p.1 < gw ∧ p.2 < gh ∧ gridGet grid gw p = color := by
  induction h with
  | refl => exact hs
  | tail _ hstep _ => exact ⟨hstep.2.1, hstep.2.2.1, hstep.2.2.2⟩

theorem conn_symm (grid : List ℕ) (gw gh color : ℕ) (s p : Pos)
    (hs : s.1 < gw ∧ s.2 < gh ∧ gridGet grid gw s = color)
    (h : Conn grid gw gh color s p) : Conn grid gw gh color p s := by
  induction h with
  | refl => exact Relation.ReflTransGen.refl
  | tail hsb hstep ih =>
      exact Relation.ReflTransGen.head
        (adjStep_symm grid gw gh color _ _ (conn_props grid gw gh color s _ hs hsb) hstep) ih

theorem closedSet_walk (grid : List ℕ) (gw gh color : ℕ) (v : List Pos)
    (hv : ClosedSet grid gw gh v) (p q : Pos)
    (h : Conn grid gw gh color p q) (hp : p ∈ v) (hpc : gridGet grid gw p = color)
    (hpb : p.1 < gw ∧ p.2 < gh) : q ∈ v := by
  induction h with
  | refl => exact hp
  | tail hab hstep ih =>
      have hb := conn_props grid gw gh color p _ ⟨hpb.1, hpb.2, hpc⟩ hab
      exact hv _ ih _ (by rw [hb.2.2]; exact hstep)

theorem comp_disjoint (grid : List ℕ) (gw gh color : ℕ) (v : List Pos)
    (hv : ClosedSet grid gw gh v) (s : Pos) (hs : s ∉ v)
    (hsc : gridGet grid gw s = color) (hsb : s.1 < gw ∧ s.2 < gh)
    (p : Pos) (h : Conn grid gw gh color s p) : p ∉ v := by
  intro hpv
  have hpp := conn_props grid gw gh color s p ⟨hsb.1, hsb.2, hsc⟩ h
  have hps := conn_symm grid gw gh color s p ⟨hsb.1, hsb.2, hsc⟩ h
  exact hs (closedSet_walk grid gw gh color v hv p s hps hpv hpp.2.2 ⟨hpp.1, hpp.2.1⟩)

theorem conn_row (grid : List ℕ) (gw gh color y0 : ℕ) (hy : y0 < gh)
    (hrow : ∀ x, x < gw → gridGet grid gw (x, y0) = color) :
    ∀ x, x < gw → Conn grid gw gh color (0, y0) (x, y0) := by
  intro x
  induction x with
  | zero => intro _; exact Relation.ReflTransGen.refl
  | succ x ih =>
      intro hx
      refine Relation.ReflTransGen.tail (ih (by omega)) ?_
      refine ⟨⟨(1, 0), by decide, ?_, ?_⟩, hx, hy, hrow (x + 1) hx⟩
      · dsimp only
        push_cast
        ring
      · dsimp only
        ring

/-! ### Flood fill: the termination measure -/

theorem unvis_insert (gw gh : ℕ) (v : List Pos) (p : Pos)
    (hb : p.1 < gw ∧ p.2 < gh) (hp : p ∉ v) :
    unvis gw gh v = unvis gw gh (p :: v) + 1 := by
  unfold unvis
  have hmem : p ∈ (Finset.range gw ×ˢ Finset.range gh).filter (fun q => q ∉ v) := by
    simp [Finset.mem_product, hb.1, hb.2, hp]
  have hsub : (Finset.range gw ×ˢ Finset.range gh).filter (fun q => q ∉ (p :: v)) =
      ((Finset.range gw ×ˢ Finset.range gh).filter (fun q => q ∉ v)).erase p := by
    ext q
    simp only [Finset.mem_filter, Finset.mem_erase, List.mem_cons]
    tauto
  rw [hsub, Finset.card_erase_of_mem hmem]
  have hpos : 0 < ((Finset.range gw ×ˢ Finset.range gh).filter (fun q => q ∉ v)).card :=
    Finset.card_pos.mpr ⟨p, hmem⟩
  omega

theorem unvis_le (gw gh : ℕ) (v : List Pos) : unvis gw gh v ≤ gw * gh := by
  unfold unvis
  calc ((Finset.range gw ×ˢ Finset.range gh).filter (fun q => q ∉ v)).card
      ≤ (Finset.range gw ×ˢ Finset.range gh).card := Finset.card_filter_le _ _
    _ = gw * gh := by rw [Finset.card_product, Finset.card_range, Finset.card_range]

/-! ### Flood fill: the neighbour push -/

theorem pushNeighbour_cases (grid : List ℕ) (gw gh c : ℕ) (x y : ℕ)
    (st : List Pos × List Pos) (d : ℤ × ℤ) :
    (pushNeighbour grid gw gh c x y st d = st ∧
      ∀ q : Pos, (q.1 : ℤ) = (x : ℤ) + d.1 → (q.2 : ℤ) = (y : ℤ) + d.2 →
        q.1 < gw → q.2 < gh → gridGet grid gw q = c → q ∈ st.1) ∨
      ∃ np : Pos, np.1 < gw ∧ np.2 < gh ∧
        (np.1 : ℤ) = (x : ℤ) + d.1 ∧ (np.2 : ℤ) = (y : ℤ) + d.2 ∧
        gridGet grid gw np = c ∧ np ∉ st.1 ∧
        pushNeighbour grid gw gh c x y st d = (np :: st.1, np :: st.2) := by
  by_cases hbnd : 0 ≤ (x : ℤ) + d.1 ∧ (x : ℤ) + d.1 < (gw : ℤ) ∧
      0 ≤ (y : ℤ) + d.2 ∧ (y : ℤ) + d.2 < (gh : ℤ)
  · by_cases hcv : gridGet grid gw (((x : ℤ) + d.1).toNat, ((y : ℤ) + d.2).toNat) = c ∧
        (((x : ℤ) + d.1).toNat, ((y : ℤ) + d.2).toNat) ∉ st.1
    · right
      refine ⟨(((x : ℤ) + d.1).toNat, ((y : ℤ) + d.2).toNat), ?_, ?_, ?_, ?_,
        hcv.1, hcv.2, ?_⟩
      · show ((x : ℤ) + d.1).toNat < gw
        omega
      · show ((y : ℤ) + d.2).toNat < gh
        omega
      · show ((((x : ℤ) + d.1).toNat : ℕ) : ℤ) = (x : ℤ) + d.1
        omega
      · show ((((y : ℤ) + d.2).toNat : ℕ) : ℤ) = (y : ℤ) + d.2
        omega
      · simp only [pushNeighbour, if_pos hbnd, if_pos hcv]
    · left
      constructor
      · simp only [pushNeighbour, if_pos hbnd, if_neg hcv]
      · intro q hq1 hq2 _ _ hqc
        have h1 : q.1 = ((x : ℤ) + d.1).toNat := by omega
        have h2 : q.2 = ((y : ℤ) + d.2).toNat := by omega
        have hqe : q = (((x : ℤ) + d.1).toNat, ((y : ℤ) + d.2).toNat) := by
          rw [← h1, ← h2]
        rcases not_and_or.mp hcv with hcv1 | hcv2
        · exact absurd (hqe ▸ hqc) hcv1
        · exact hqe ▸ (not_not.mp hcv2)
  · left
    constructor
    · simp only [pushNeighbour, if_neg hbnd]
    · intro q hq1 hq2 hqw hqh _
      exfalso
      apply hbnd
      refine ⟨by omega, by omega, by omega, by omega⟩

theorem pushFold_spec (grid : List ℕ) (gw gh c : ℕ) (x y : ℕ) :
    ∀ (ds : List (ℤ × ℤ)), (∀ d ∈ ds, d ∈ NEIGHBOURS_8) →
    ∀ (v rest v1 s1 : List Pos),
      ds.foldl (pushNeighbour grid gw gh c x y) (v, rest) = (v1, s1) →
      (∀ p ∈ v, p ∈ v1) ∧
      (∀ p ∈ v1, p ∈ v ∨ (AdjStep grid gw gh c (x, y) p ∧ p ∉ v)) ∧
      (∀ p ∈ rest, p ∈ s1) ∧
      (∀ p ∈ s1, p ∈ rest ∨ (p ∈ v1 ∧ p ∉ v)) ∧
      (∀ p ∈ v1, p ∉ v → p ∈ s1) ∧
      (∀ d ∈ ds, ∀ q : Pos,
        (q.1 : ℤ) = (x : ℤ) + d.1 → (q.2 : ℤ) = (y : ℤ) + d.2 →
        q.1 < gw → q.2 < gh → gridGet grid gw q = c → q ∈ v1) ∧
      (2 * unvis gw gh v1 + s1.length ≤ 2 * unvis gw gh v + rest.length) := by
  intro ds
  induction ds with
  | nil =>
      intro _ v rest v1 s1 heq
      injection heq with hv hs
      subst hv
      subst hs
      refine ⟨fun p hp => hp, fun p hp => Or.inl hp, fun p hp => hp,
        fun p hp => Or.inl hp, ?_, by simp, le_refl _⟩
      intro p hp hnp
      exact absurd hp hnp
  | cons d ds ih =>
      intro hds v rest v1 s1 heq
      rw [List.foldl_cons] at heq
      rcases pushNeighbour_cases grid gw gh c x y (v, rest) d with ⟨hstep, hq⟩ |
        ⟨np, hnpw, hnph, hnp1, hnp2, hnpc, hnpv, hstep⟩
      · rw [hstep] at heq
        obtain ⟨s1', s2', s3', s4', s5', s6', s7'⟩ :=
          ih (fun d0 hd0 => hds d0 (by simp [hd0])) v rest v1 s1 heq
        refine ⟨s1', s2', s3', s4', s5', ?_, s7'⟩
        intro d0 hd0 q hq1 hq2 hqw hqh hqc
        rcases List.mem_cons.mp hd0 with rfl | hd0'
        · exact s1' q (hq q hq1 hq2 hqw hqh hqc)
        · exact s6' d0 hd0' q hq1 hq2 hqw hqh hqc
      · rw [hstep] at heq
        obtain ⟨s1', s2', s3', s4', s5', s6', s7'⟩ :=
          ih (fun d0 hd0 => hds d0 (by simp [hd0])) (np :: v) (np :: rest) v1 s1 heq
        have hadj : AdjStep grid gw gh c (x, y) np :=
          ⟨⟨d, hds d (by simp), hnp1, hnp2⟩, hnpw, hnph, hnpc⟩
        refine ⟨?_, ?_, ?_, ?_, ?_, ?_, ?_⟩
        · intro p hp
          exact s1' p (by simp [hp])
        · intro p hp
          rcases s2' p hp with hp' | ⟨ha, hnv⟩
          · rcases List.mem_cons.mp hp' with rfl | hp''
            · exact Or.inr ⟨hadj, hnpv⟩
            · exact Or.inl hp''
          · exact Or.inr ⟨ha, fun hpv => hnv (by simp [hpv])⟩
        · intro p hp
          exact s3' p (by simp [hp])
        · intro p hp
          rcases s4' p hp with hp' | ⟨hv1, hnv⟩
          · rcases List.mem_cons.mp hp' with rfl | hp''
            · exact Or.inr ⟨s1' p (by simp), hnpv⟩
            · exact Or.inl hp''
          · exact Or.inr ⟨hv1, fun hpv => hnv (by simp [hpv])⟩
        · intro p hp hnv
          by_cases hpnp : p = np
          · subst hpnp
            exact s3' p (by simp)
          · exact s5' p hp (by simp [hpnp, hnv])
        · intro d0 hd0 q hq1 hq2 hqw hqh hqc
          rcases List.mem_cons.mp hd0 with rfl | hd0'
          · have e1 : q.1 = np.1 := by omega
            have e2 : q.2 = np.2 := by omega
            have hqe : q = np := Prod.ext e1 e2
            subst hqe
            exact s1' q (by simp)
          · exact s6' d0 hd0' q hq1 hq2 hqw hqh hqc
        · have hu := unvis_insert gw gh v np ⟨hnpw, hnph⟩ hnpv
          have hlen : (np :: rest).length = rest.length + 1 := rfl
          omega

/-! ### Flood fill: the worklist loop -/

theorem floodLoop_spec (grid : List ℕ) (gw gh c : ℕ) (v0 : List Pos) (s : Pos)
    (hclosed : ClosedSet grid gw gh v0) (hsnot : s ∉ v0)
    (hsc : gridGet grid gw s = c) (hsw : s.1 < gw) (hsh : s.2 < gh) :
    ∀ (fuel : ℕ) (v st : List Pos) (tr : Bool),
      (∀ p ∈ v0, p ∈ v) →
      (∀ p ∈ v, p ∉ v0 → Conn grid gw gh c s p) →
      (∀ p ∈ st, p ∈ v ∧ p ∉ v0) →
      (∀ p ∈ v, p ∉ v0 → p ∉ st →
        ∀ q : Pos, AdjStep grid gw gh c p q → q ∈ v) →
      (∀ p ∈ v, p ∉ v0 → p.1 = gw - 1 → (p ∈ st ∨ tr = true)) →
      (∀ p ∈ v, p.1 < gw ∧ p.2 < gh) →
      2 * unvis gw gh v + st.length ≤ fuel →
      (∀ p ∈ v, p ∈ (floodLoop grid gw gh c fuel v st tr).1) ∧
      (∀ p ∈ (floodLoop grid gw gh c fuel v st tr).1, p ∉ v0 → Conn grid gw gh c s p) ∧
      (∀ p ∈ (floodLoop grid gw gh c fuel v st tr).1, p ∉ v0 →
        ∀ q : Pos, AdjStep grid gw gh c p q → q ∈ (floodLoop grid gw gh c fuel v st tr).1) ∧
      (∀ p ∈ (floodLoop grid gw gh c fuel v st tr).1, p ∉ v0 → p.1 = gw - 1 →
        (floodLoop grid gw gh c fuel v st tr).2 = true) ∧
      (∀ p ∈ (floodLoop grid gw gh c fuel v st tr).1, p.1 < gw ∧ p.2 < gh) := by
  intro fuel
  induction fuel with
  | zero =>
      intro v st tr h1 h2 h3 h4 h5 h6 hm
      have hst : st = [] := List.length_eq_zero.mp (by omega)
      subst hst
      refine ⟨fun p hp => hp, h2, ?_, ?_, h6⟩
      · intro p hp hnp q hq
        exact h4 p hp hnp (by simp) q hq
      · intro p hp hnp hp1
        rcases h5 p hp hnp hp1 with h | h
        · simp at h
        · exact h
  | succ fuel ih =>
      intro v st tr h1 h2 h3 h4 h5 h6 hm
      cases st with
      | nil =>
          refine ⟨fun p hp => hp, h2, ?_, ?_, h6⟩
          · intro p hp hnp q hq
            exact h4 p hp hnp (by simp) q hq
          · intro p hp hnp hp1
            rcases h5 p hp hnp hp1 with h | h
            · simp at h
            · exact h
      | cons p rest =>
          obtain ⟨hpv, hpv0⟩ := h3 p (by simp)
          rcases hfold : NEIGHBOURS_8.foldl (pushNeighbour grid gw gh c p.1 p.2) (v, rest)
            with ⟨v1, s1⟩
          obtain ⟨f1, f2, f3, f4, f5, f6, f7⟩ :=
            pushFold_spec grid gw gh c p.1 p.2 NEIGHBOURS_8 (fun d hd => hd) v rest v1 s1 hfold
          have hconn_p : Conn grid gw gh c s p := h2 p hpv hpv0
          have hstep : floodLoop grid gw gh c (fuel + 1) v (p :: rest) tr =
              floodLoop grid gw gh c fuel v1 s1 (tr || decide (p.1 = gw - 1)) := by
            simp only [floodLoop, hfold]
          rw [hstep]
          have i1 : ∀ q ∈ v0, q ∈ v1 := fun q hq => f1 q (h1 q hq)
          have i2 : ∀ q ∈ v1, q ∉ v0 → Conn grid gw gh c s q := by
            intro q hq hq0
            rcases f2 q hq with hq' | ⟨ha, _⟩
            · exact h2 q hq' hq0
            · exact Relation.ReflTransGen.tail hconn_p ha
          have i3 : ∀ q ∈ s1, q ∈ v1 ∧ q ∉ v0 := by
            intro q hq
            rcases f4 q hq with hq' | ⟨hq1, hqnv⟩
            · obtain ⟨ha, hb⟩ := h3 q (by simp [hq'])
              exact ⟨f1 q ha, hb⟩
            · exact ⟨hq1, fun hc => hqnv (h1 q hc)⟩
          have i4 : ∀ q ∈ v1, q ∉ v0 → q ∉ s1 →
              ∀ r : Pos, AdjStep grid gw gh c q r → r ∈ v1 := by
            intro q hq hq0 hqs r hr
            rcases f2 q hq with hq' | ⟨_, hqnv⟩
            · by_cases hqp : q = p
              · subst hqp
                obtain ⟨⟨d, hd, hr1, hr2⟩, hrw, hrh, hrc⟩ := hr
                exact f6 d hd r hr1 hr2 hrw hrh hrc
              · have hqrest : q ∉ rest := fun hc => hqs (f3 q hc)
                have hqst : q ∉ p :: rest := by simp [hqp, hqrest]
                exact f1 r (h4 q hq' hq0 hqst r hr)
            · exact absurd (f5 q hq hqnv) hqs
          have i5 : ∀ q ∈ v1, q ∉ v0 → q.1 = gw - 1 →
              (q ∈ s1 ∨ (tr || decide (p.1 = gw - 1)) = true) := by
            intro q hq hq0 hq1
            rcases f2 q hq with hq' | ⟨_, hqnv⟩
            · rcases h5 q hq' hq0 hq1 with hqst | htr
              · rcases List.mem_cons.mp hqst with rfl | hqrest
                · right
                  simp [hq1]
                · exact Or.inl (f3 q hqrest)
              · right
                simp [htr]
            · exact Or.inl (f5 q hq hqnv)
          have i6 : ∀ q ∈ v1, q.1 < gw ∧ q.2 < gh := by
            intro q hq
            rcases f2 q hq with hq' | ⟨ha, _⟩
            · exact h6 q hq'
            · exact ⟨ha.2.1, ha.2.2.1⟩
          have i7 : 2 * unvis gw gh v1 + s1.length ≤ fuel := by
            have hlen : (p :: rest).length = rest.length + 1 := rfl
            omega
          obtain ⟨g1, g2, g3, g4, g5⟩ :=
            ih v1 s1 (tr || decide (p.1 = gw - 1)) i1 i2 i3 i4 i5 i6 i7
          exact ⟨fun q hq => g1 q (f1 q hq), g2, g3, g4, g5⟩

theorem floodFrom_spec (grid : List ℕ) (gw gh c : ℕ) (v0 : List Pos) (s : Pos)
    (hclosed : ClosedSet grid gw gh v0) (hbnd0 : ∀ p ∈ v0, p.1 < gw ∧ p.2 < gh)
    (hsnot : s ∉ v0) (hsc : gridGet grid gw s = c) (hsw : s.1 < gw) (hsh : s.2 < gh) :
    (∀ p ∈ v0, p ∈ (floodFrom grid gw gh c s v0).1) ∧
    (∀ p ∈ (floodFrom grid gw gh c s v0).1, p ∉ v0 → Conn grid gw gh c s p) ∧
    (∀ p, Conn grid gw gh c s p → p ∈ (floodFrom grid gw gh c s v0).1) ∧
    ((∃ p, Conn grid gw gh c s p ∧ p.1 = gw - 1) → (floodFrom grid gw gh c s v0).2 = true) ∧
    ClosedSet grid gw gh (floodFrom grid gw gh c s v0).1 ∧
    (∀ p ∈ (floodFrom grid gw gh c s v0).1, p.1 < gw ∧ p.2 < gh) := by
  have hinit1 : ∀ p ∈ v0, p ∈ s :: v0 := fun p hp => by simp [hp]
  have hinit2 : ∀ p ∈ s :: v0, p ∉ v0 → Conn grid gw gh c s p := by
    intro p hp hnp
    rcases List.mem_cons.mp hp with rfl | hp'
    · exact Relation.ReflTransGen.refl
    · exact absurd hp' hnp
  have hinit3 : ∀ p ∈ [s], p ∈ s :: v0 ∧ p ∉ v0 := by
    intro p hp
    rcases List.mem_cons.mp hp with rfl | hp'
    · exact ⟨by simp, hsnot⟩
    · simp at hp'
  have hinit4 : ∀ p ∈ s :: v0, p ∉ v0 → p ∉ [s] →
      ∀ q : Pos, AdjStep grid gw gh c p q → q ∈ s :: v0 := by
    intro p hp hnp hns q _
    rcases List.mem_cons.mp hp with rfl | hp'
    · exact absurd (by simp) hns
    · exact absurd hp' hnp
  have hinit5 : ∀ p ∈ s :: v0, p ∉ v0 → p.1 = gw - 1 → (p ∈ [s] ∨ false = true) := by
    intro p hp hnp _
    rcases List.mem_cons.mp hp with rfl | hp'
    · exact Or.inl (by simp)
    · exact absurd hp' hnp
  have hinit6 : ∀ p ∈ s :: v0, p.1 < gw ∧ p.2 < gh := by
    intro p hp
    rcases List.mem_cons.mp hp with rfl | hp'
    · exact ⟨hsw, hsh⟩
    · exact hbnd0 p hp'
  have hmeas : 2 * unvis gw gh (s :: v0) + [s].length ≤ floodFuel gw gh := by
    have hle := unvis_le gw gh (s :: v0)
    have hlen : ([s] : List Pos).length = 1 := rfl
    unfold floodFuel
    omega
  obtain ⟨g1, g2, g3, g4, g5⟩ :=
    floodLoop_spec grid gw gh c v0 s hclosed hsnot hsc hsw hsh
      (floodFuel gw gh) (s :: v0) [s] false hinit1 hinit2 hinit3 hinit4 hinit5 hinit6 hmeas
  have hsin : s ∈ (floodFrom grid gw gh c s v0).1 := g1 s (by simp)
  have hcomp : ∀ p, Conn grid gw gh c s p → p ∈ (floodFrom grid gw gh c s v0).1 := by
    intro p hp
    induction hp with
    | refl => exact hsin
    | tail hab hstep ihp =>
        have hbnotin := comp_disjoint grid gw gh c v0 hclosed s hsnot hsc ⟨hsw, hsh⟩ _ hab
        exact g3 _ ihp hbnotin _ hstep
  refine ⟨fun p hp => g1 p (hinit1 p hp), g2, hcomp, ?_, ?_, g5⟩
  · rintro ⟨p, hp, hp1⟩
    have hpin := hcomp p hp
    have hpnot := comp_disjoint grid gw gh c v0 hclosed s hsnot hsc ⟨hsw, hsh⟩ p hp
    exact g4 p hpin hpnot hp1
  · intro p hp q hq
    by_cases hpv0 : p ∈ v0
    · exact g1 q (hinit1 q (hclosed p hpv0 q hq))
    · have hpc := conn_props grid gw gh c s p ⟨hsw, hsh, hsc⟩ (g2 p hp hpv0)
      have hq' : AdjStep grid gw gh c p q := hpc.2.2 ▸ hq
      exact g3 p hp hpv0 q hq'

/-! ### Flood fill: no clear without a right-column cell -/

theorem floodLoop_no_right (grid : List ℕ) (gw gh c : ℕ)
    (hnc : ∀ y, y < gh → gridGet grid gw (gw - 1, y) ≠ c) :
    ∀ (fuel : ℕ) (v st : List Pos),
      (∀ p ∈ st, gridGet grid gw p = c ∧ p.1 < gw ∧ p.2 < gh) →
      (floodLoop grid gw gh c fuel v st false).2 = false := by
  intro fuel
  induction fuel with
  | zero => intro v st _; rfl
  | succ fuel ih =>
      intro v st hst
      cases st with
      | nil => rfl
      | cons p rest =>
          obtain ⟨hpc, hpw, hph⟩ := hst p (by simp)
          have hp1 : ¬(p.1 = gw - 1) := by
            intro he
            apply hnc p.2 hph
            rw [← he]
            exact hpc
          rcases hfold : NEIGHBOURS_8.foldl (pushNeighbour grid gw gh c p.1 p.2) (v, rest)
            with ⟨v1, s1⟩
          obtain ⟨f1, f2, f3, f4, f5, f6, f7⟩ :=
            pushFold_spec grid gw gh c p.1 p.2 NEIGHBOURS_8 (fun d hd => hd) v rest v1 s1 hfold
          have hstep : floodLoop grid gw gh c (fuel + 1) v (p :: rest) false =
              floodLoop grid gw gh c fuel v1 s1 (false || decide (p.1 = gw - 1)) := by
            simp only [floodLoop, hfold]
          rw [hstep]
          have htr : (false || decide (p.1 = gw - 1)) = false := by simp [hp1]
          rw [htr]
          apply ih v1 s1
          intro q hq
          rcases f4 q hq with hq' | ⟨hq1, hqnv⟩
          · exact hst q (by simp [hq'])
          · rcases f2 q hq1 with hqv | ⟨hadj, _⟩
            · exact absurd hqv hqnv
            · exact ⟨hadj.2.2.2, hadj.2.1, hadj.2.2.1⟩

theorem colorClears_fold_no_right (grid : List ℕ) (gw gh c : ℕ) (hgw : 0 < gw)
    (hnc : ∀ y, y < gh → gridGet grid gw (gw - 1, y) ≠ c) :
    ∀ (ys : List ℕ), (∀ y ∈ ys, y < gh) → ∀ (vst : List Pos × ℕ),
      ((ys.foldl
        (fun st start_y =>
          if gridGet grid gw (0, start_y) = c ∧ (0, start_y) ∉ st.1 then
            ((floodFrom grid gw gh c (0, start_y) st.1).1,
              st.2 + if (floodFrom grid gw gh c (0, start_y) st.1).2 then 1 else 0)
          else st)
        vst).2 = vst.2) := by
  intro ys
  induction ys with
  | nil => intro _ vst; rfl
  | cons a t ih =>
      intro hmem vst
      rw [List.foldl_cons]
      by_cases hg : gridGet grid gw (0, a) = c ∧ (0, a) ∉ vst.1
      · rw [if_pos hg]
        have htr : (floodFrom grid gw gh c (0, a) vst.1).2 = false := by
          unfold floodFrom
          apply floodLoop_no_right grid gw gh c hnc
          intro q hq
          rcases List.mem_cons.mp hq with rfl | hq'
          · exact ⟨hg.1, hgw, hmem a (by simp)⟩
          · simp at hq'
        rw [ih (fun y hy => hmem y (by simp [hy]))]
        simp [htr]
      · rw [if_neg hg]
        exact ih (fun y hy => hmem y (by simp [hy])) vst

/-! ### Flood fill: the per-color pass -/

theorem colorClears_fold_mono (grid : List ℕ) (gw gh c : ℕ) (hgw : 0 < gw) :
    ∀ (ys : List ℕ), (∀ y ∈ ys, y < gh) → ∀ (v : List Pos) (n : ℕ),
      ClosedSet grid gw gh v → (∀ p ∈ v, p.1 < gw ∧ p.2 < gh) →
      (ClosedSet grid gw gh
          ((ys.foldl
            (fun st start_y =>
              if gridGet grid gw (0, start_y) = c ∧ (0, start_y) ∉ st.1 then
                ((floodFrom grid gw gh c (0, start_y) st.1).1,
                  st.2 + if (floodFrom grid gw gh c (0, start_y) st.1).2 then 1 else 0)
              else st)
            (v, n)).1) ∧
        (∀ p ∈ (ys.foldl
            (fun st start_y =>
              if gridGet grid gw (0, start_y) = c ∧ (0, start_y) ∉ st.1 then
                ((floodFrom grid gw gh c (0, start_y) st.1).1,
                  st.2 + if (floodFrom grid gw gh c (0, start_y) st.1).2 then 1 else 0)
              else st)
            (v, n)).1, p.1 < gw ∧ p.2 < gh) ∧
        n ≤ (ys.foldl
            (fun st start_y =>
              if gridGet grid gw (0, start_y) = c ∧ (0, start_y) ∉ st.1 then
                ((floodFrom grid gw gh c (0, start_y) st.1).1,
                  st.2 + if (floodFrom grid gw gh c (0, start_y) st.1).2 then 1 else 0)
              else st)
            (v, n)).2 ∧
        (∀ p ∈ (ys.foldl
            (fun st start_y =>
              if gridGet grid gw (0, start_y) = c ∧ (0, start_y) ∉ st.1 then
                ((floodFrom grid gw gh c (0, start_y) st.1).1,
                  st.2 + if (floodFrom grid gw gh c (0, start_y) st.1).2 then 1 else 0)
              else st)
            (v, n)).1, p ∈ v ∨ gridGet grid gw p = c)) := by
  intro ys
  induction ys with
  | nil =>
      intro _ v n hcl hbd
      exact ⟨hcl, hbd, le_refl n, fun p hp => Or.inl hp⟩
  | cons a t ih =>
      intro hmem v n hcl hbd
      rw [List.foldl_cons]
      by_cases hg : gridGet grid gw (0, a) = c ∧ (0, a) ∉ v
      · have hg' : gridGet grid gw (0, a) = c ∧ (0, a) ∉ ((v, n) : List Pos × ℕ).1 := hg
        rw [if_pos hg']
        obtain ⟨g1, g2, g3, g4, g5, g6⟩ :=
          floodFrom_spec grid gw gh c v (0, a) hcl hbd hg.2 hg.1 hgw (hmem a (by simp))
        have hnewcol : ∀ p ∈ (floodFrom grid gw gh c (0, a) v).1,
            p ∈ v ∨ gridGet grid gw p = c := by
          intro p hp
          by_cases hpv : p ∈ v
          · exact Or.inl hpv
          · right
            exact (conn_props grid gw gh c (0, a) p ⟨hgw, hmem a (by simp), hg.1⟩
              (g2 p hp hpv)).2.2
        obtain ⟨r1, r2, r3, r4⟩ := ih (fun y hy => hmem y (by simp [hy]))
          (floodFrom grid gw gh c (0, a) v).1
          (n + if (floodFrom grid gw gh c (0, a) v).2 then 1 else 0) g5 g6
        refine ⟨r1, r2, le_trans (by omega) r3, ?_⟩
        intro p hp
        rcases r4 p hp with hp' | hp'
        · rcases hnewcol p hp' with hv | hc
          · exact Or.inl hv
          · exact Or.inr hc
        · exact Or.inr hp'
      · have hg' : ¬(gridGet grid gw (0, a) = c ∧ (0, a) ∉ ((v, n) : List Pos × ℕ).1) := hg
        rw [if_neg hg']
        exact ih (fun y hy => hmem y (by simp [hy])) v n hcl hbd

theorem colorClears_fold_hits (grid : List ℕ) (gw gh c y0 : ℕ) (hgw : 0 < gw)
    (hy0 : y0 < gh) (hrow : ∀ x, x < gw → gridGet grid gw (x, y0) = c) :
    ∀ (ys : List ℕ), (∀ y ∈ ys, y < gh) → y0 ∈ ys →
      ∀ (v : List Pos) (n : ℕ),
        ClosedSet grid gw gh v → (∀ p ∈ v, p.1 < gw ∧ p.2 < gh) → (0, y0) ∉ v →
        n + 1 ≤ ((ys.foldl
          (fun st start_y =>
            if gridGet grid gw (0, start_y) = c ∧ (0, start_y) ∉ st.1 then
              ((floodFrom grid gw gh c (0, start_y) st.1).1,
                st.2 + if (floodFrom grid gw gh c (0, start_y) st.1).2 then 1 else 0)
            else st)
          (v, n)).2) := by
  intro ys
  induction ys with
  | nil =>
      intro _ hy0in v n _ _ _
      simp at hy0in
  | cons a t ih =>
      intro hmem hy0in v n hcl hbd hnv
      rw [List.foldl_cons]
      by_cases hg : gridGet grid gw (0, a) = c ∧ (0, a) ∉ v
      · have hg' : gridGet grid gw (0, a) = c ∧ (0, a) ∉ ((v, n) : List Pos × ℕ).1 := hg
        rw [if_pos hg']
        obtain ⟨g1, g2, g3, g4, g5, g6⟩ :=
          floodFrom_spec grid gw gh c v (0, a) hcl hbd hg.2 hg.1 hgw (hmem a (by simp))
        by_cases htr : (floodFrom grid gw gh c (0, a) v).2 = true
        · obtain ⟨_, _, r3, _⟩ := colorClears_fold_mono grid gw gh c hgw t
            (fun y hy => hmem y (by simp [hy]))
            (floodFrom grid gw gh c (0, a) v).1
            (n + if (floodFrom grid gw gh c (0, a) v).2 then 1 else 0) g5 g6
          have he : n + (if (floodFrom grid gw gh c (0, a) v).2 then 1 else 0) = n + 1 := by
            rw [htr]
            simp
          dsimp only
          omega
        · have htr' : (floodFrom grid gw gh c (0, a) v).2 = false := by
            simpa using htr
          have hny0 : (0, y0) ∉ (floodFrom grid gw gh c (0, a) v).1 := by
            intro hin
            have hconn : Conn grid gw gh c (0, a) (0, y0) := g2 _ hin hnv
            have hconn2 : Conn grid gw gh c (0, a) (gw - 1, y0) :=
              Relation.ReflTransGen.trans hconn
                (conn_row grid gw gh c y0 hy0 hrow (gw - 1) (by omega))
            have hc4 := g4 ⟨(gw - 1, y0), hconn2, rfl⟩
            rw [htr'] at hc4
            exact absurd hc4 (by simp)
          have hay0 : a ≠ y0 := by
            intro he
            subst he
            exact hny0 (g3 (0, a) Relation.ReflTransGen.refl)
          have hy0t : y0 ∈ t := by
            rcases List.mem_cons.mp hy0in with he | ht
            · exact absurd he.symm hay0
            · exact ht
          have hrec := ih (fun y hy => hmem y (by simp [hy])) hy0t
            (floodFrom grid gw gh c (0, a) v).1
            (n + if (floodFrom grid gw gh c (0, a) v).2 then 1 else 0) g5 g6 hny0
          have he : n + (if (floodFrom grid gw gh c (0, a) v).2 then 1 else 0) = n := by
            rw [htr']
            simp
          dsimp only
          omega
      · have hay0 : a ≠ y0 := by
          intro he
          subst he
          exact hg ⟨hrow 0 hgw, hnv⟩
        have hy0t : y0 ∈ t := by
          rcases List.mem_cons.mp hy0in with he | ht
          · exact absurd he.symm hay0
          · exact ht
        have hg' : ¬(gridGet grid gw (0, a) = c ∧ (0, a) ∉ ((v, n) : List Pos × ℕ).1) := hg
        rw [if_neg hg']
        exact ih (fun y hy => hmem y (by simp [hy])) hy0t v n hcl hbd hnv

/-! ### Flood fill: across colors -/

theorem colors_fold_mono (grid : List ℕ) (gw gh : ℕ) (hgw : 0 < gw) :
    ∀ (cl : List ℕ) (v : List Pos) (n : ℕ),
      ClosedSet grid gw gh v → (∀ p ∈ v, p.1 < gw ∧ p.2 < gh) →
      (ClosedSet grid gw gh
          ((cl.foldl (fun st i => colorClears grid gw gh (i + 1) st) (v, n)).1) ∧
        (∀ p ∈ (cl.foldl (fun st i => colorClears grid gw gh (i + 1) st) (v, n)).1,
          p.1 < gw ∧ p.2 < gh) ∧
        n ≤ (cl.foldl (fun st i => colorClears grid gw gh (i + 1) st) (v, n)).2) := by
  intro cl
  induction cl with
  | nil =>
      intro v n hcl hbd
      exact ⟨hcl, hbd, le_refl n⟩
  | cons i t ih =>
      intro v n hcl hbd
      rw [List.foldl_cons]
      obtain ⟨r1, r2, r3, _⟩ := colorClears_fold_mono grid gw gh (i + 1) hgw (List.range gh)
        (fun y hy => List.mem_range.mp hy) v n hcl hbd
      have hpair : ((colorClears grid gw gh (i + 1) (v, n)).1,
          (colorClears grid gw gh (i + 1) (v, n)).2) = colorClears grid gw gh (i + 1) (v, n) :=
        rfl
      obtain ⟨m1, m2, m3⟩ := ih (colorClears grid gw gh (i + 1) (v, n)).1
        (colorClears grid gw gh (i + 1) (v, n)).2 r1 r2
      rw [hpair] at m1 m2 m3
      have r3' : n ≤ (colorClears grid gw gh (i + 1) (v, n)).2 := r3
      exact ⟨m1, m2, by omega⟩

theorem colors_fold_hits (grid : List ℕ) (gw gh c y0 : ℕ) (hgw : 0 < gw)
    (hy0 : y0 < gh) (hc1 : 1 ≤ c) (hrow : ∀ x, x < gw → gridGet grid gw (x, y0) = c) :
    ∀ (cl : List ℕ), (c - 1) ∈ cl →
      ∀ (v : List Pos) (n : ℕ),
        ClosedSet grid gw gh v → (∀ p ∈ v, p.1 < gw ∧ p.2 < gh) → (0, y0) ∉ v →
        n + 1 ≤ (cl.foldl (fun st i => colorClears grid gw gh (i + 1) st) (v, n)).2 := by
  intro cl
  induction cl with
  | nil =>
      intro h
      simp at h
  | cons i t ih =>
      intro hmem v n hcl hbd hnv
      rw [List.foldl_cons]
      by_cases hic : i = c - 1
      · subst hic
        have hcc : c - 1 + 1 = c := by omega
        rw [hcc]
        have hhits : n + 1 ≤ (colorClears grid gw gh c (v, n)).2 :=
          colorClears_fold_hits grid gw gh c y0 hgw hy0 hrow (List.range gh)
            (fun y hy => List.mem_range.mp hy) (List.mem_range.mpr hy0) v n hcl hbd hnv
        obtain ⟨r1, r2, _, _⟩ := colorClears_fold_mono grid gw gh c hgw (List.range gh)
          (fun y hy => List.mem_range.mp hy) v n hcl hbd
        have hpair : ((colorClears grid gw gh c (v, n)).1,
            (colorClears grid gw gh c (v, n)).2) = colorClears grid gw gh c (v, n) := rfl
        obtain ⟨_, _, m3⟩ := colors_fold_mono grid gw gh hgw t
          (colorClears grid gw gh c (v, n)).1 (colorClears grid gw gh c (v, n)).2 r1 r2
        rw [hpair] at m3
        have hhits' : n + 1 ≤ (colorClears grid gw gh c (v, n)).2 := hhits
        omega
      · have hneq : i + 1 ≠ c := by omega
        obtain ⟨r1, r2, r3, r4⟩ := colorClears_fold_mono grid gw gh (i + 1) hgw (List.range gh)
          (fun y hy => List.mem_range.mp hy) v n hcl hbd
        have hnv' : (0, y0) ∉ (colorClears grid gw gh (i + 1) (v, n)).1 := by
          intro hin
          rcases r4 (0, y0) hin with h | h
          · exact hnv h
          · exact hneq (by rw [← h, hrow 0 hgw])
        have hct : c - 1 ∈ t := by
          rcases List.mem_cons.mp hmem with he | ht
          · exact absurd he.symm hic
          · exact ht
        have hpair : ((colorClears grid gw gh (i + 1) (v, n)).1,
            (colorClears grid gw gh (i + 1) (v, n)).2) =
              colorClears grid gw gh (i + 1) (v, n) := rfl
        have hrec := ih hct (colorClears grid gw gh (i + 1) (v, n)).1
          (colorClears grid gw gh (i + 1) (v, n)).2 r1 r2 hnv'
        rw [hpair] at hrec
        have r3' : n ≤ (colorClears grid gw gh (i + 1) (v, n)).2 := r3
        omega

/-- Claim C3: (1) a grid in which an entire row is filled with one color of
the palette 1..6 yields at least one spanning clear; (2) if the cells of a
given color are exactly a horizontal run in one row, starting at column 0
and stopping one cell short of column gw - 1, then the per-color pass of
the counter adds zero clears for that color, from any incoming state. -/
theorem c3_spanning_clears (grid : List ℕ) (gw gh c y0 : ℕ) :
    (0 < gw → y0 < gh → 1 ≤ c → c ≤ 6 →
      (∀ x, x < gw → gridGet grid gw (x, y0) = c) →
      1 ≤ count_spanning_clears grid gw gh) ∧
    (0 < gw →
      (∀ x, x < gw → ∀ y, y < gh → (gridGet grid gw (x, y) = c ↔ (y = y0 ∧ x + 1 < gw))) →
      ∀ st : List Pos × ℕ, (colorClears grid gw gh c st).2 = st.2) := by
  constructor
  · intro hgw hy0 hc1 hc6 hrow
    have hmem : (c - 1) ∈ List.range 6 := List.mem_range.mpr (by omega)
    exact colors_fold_hits grid gw gh c y0 hgw hy0 hc1 hrow (List.range 6) hmem
      [] 0 (fun p hp => absurd hp (List.not_mem_nil p))
      (fun p hp => absurd hp (List.not_mem_nil p)) (by simp)
  · intro hgw hiff st
    have hnc : ∀ y, y < gh → gridGet grid gw (gw - 1, y) ≠ c := by
      intro y hy hc'
      have h := (hiff (gw - 1) (by omega) y hy).mp hc'
      omega
    exact colorClears_fold_no_right grid gw gh c hgw hnc (List.range gh)
      (fun y hy => List.mem_range.mp hy) st

theorem c3_witness :
    1 ≤ count_spanning_clears [1, 1, 1, 0, 0, 0] 3 2 ∧
      (colorClears [2, 2, 0] 3 1 2 ([], 0)).2 = (([], 0) : List Pos × ℕ).2 :=
  ⟨(c3_spanning_clears [1, 1, 1, 0, 0, 0] 3 2 1 0).1 (by decide) (by decide) (by decide)
      (by decide) (by decide),
   (c3_spanning_clears [2, 2, 0] 3 1 2 0).2 (by decide) (by decide) ([], 0)⟩

/-! ### The reach bonus -/

theorem mem_allCellsList (gw gh : ℕ) (p : Pos) :
    p ∈ allCellsList gw gh ↔ p.1 < gw ∧ p.2 < gh := by
  unfold allCellsList
  constructor
  · intro hp
    obtain ⟨l, hl, hpl⟩ := List.mem_flatten.mp hp
    obtain ⟨y, hy, rfl⟩ := List.mem_map.mp hl
    obtain ⟨x, hx, rfl⟩ := List.mem_map.mp hpl
    exact ⟨List.mem_range.mp hx, List.mem_range.mp hy⟩
  · intro hp
    apply List.mem_flatten.mpr
    refine ⟨(List.range gw).map (fun x => (x, p.2)), ?_, ?_⟩
    · exact List.mem_map.mpr ⟨p.2, List.mem_range.mpr hp.2, rfl⟩
    · exact List.mem_map.mpr ⟨p.1, List.mem_range.mpr hp.1, rfl⟩

theorem colorScan_fold_min_le (grid : List ℕ) (gw color : ℕ) :
    ∀ (l : List Pos) (st : ℕ × ℕ × ℕ),
      (l.foldl (colorScanUpd grid gw color) st).1 ≤ st.1 := by
  intro l
  induction l with
  | nil => intro st; exact le_refl _
  | cons a t ih =>
      intro st
      rw [List.foldl_cons]
      refine le_trans (ih _) ?_
      unfold colorScanUpd
      by_cases h : gridGet grid gw a = color
      · simp only [h, if_true]
        split <;> omega
      · simp [h]

theorem colorScan_fold_max_ge (grid : List ℕ) (gw color : ℕ) :
    ∀ (l : List Pos) (st : ℕ × ℕ × ℕ),
      st.2.1 ≤ (l.foldl (colorScanUpd grid gw color) st).2.1 := by
  intro l
  induction l with
  | nil => intro st; exact le_refl _
  | cons a t ih =>
      intro st
      rw [List.foldl_cons]
      refine le_trans ?_ (ih _)
      unfold colorScanUpd
      by_cases h : gridGet grid gw a = color
      · simp only [h, if_true]
        split <;> omega
      · simp [h]

theorem colorScan_fold_count_ge (grid : List ℕ) (gw color : ℕ) :
    ∀ (l : List Pos) (st : ℕ × ℕ × ℕ),
      st.2.2 ≤ (l.foldl (colorScanUpd grid gw color) st).2.2 := by
  intro l
  induction l with
  | nil => intro st; exact le_refl _
  | cons a t ih =>
      intro st
      rw [List.foldl_cons]
      refine le_trans ?_ (ih _)
      unfold colorScanUpd
      by_cases h : gridGet grid gw a = color
      · simp only [h, if_true]
        omega
      · simp [h]

theorem colorScan_fold_min_mem (grid : List ℕ) (gw color : ℕ)
    (l : List Pos) (st : ℕ × ℕ × ℕ) (p : Pos) (hmem : p ∈ l)
    (hc : gridGet grid gw p = color) :
    (l.foldl (colorScanUpd grid gw color) st).1 ≤ p.1 := by
  obtain ⟨s, t, rfl⟩ := List.append_of_mem hmem
  rw [List.foldl_append, List.foldl_cons]
  refine le_trans (colorScan_fold_min_le grid gw color t _) ?_
  unfold colorScanUpd
  simp only [hc, if_true]
  split <;> omega

theorem colorScan_fold_max_mem (grid : List ℕ) (gw color : ℕ)
    (l : List Pos) (st : ℕ × ℕ × ℕ) (p : Pos) (hmem : p ∈ l)
    (hc : gridGet grid gw p = color) :
    p.1 ≤ (l.foldl (colorScanUpd grid gw color) st).2.1 := by
  obtain ⟨s, t, rfl⟩ := List.append_of_mem hmem
  rw [List.foldl_append, List.foldl_cons]
  refine le_trans ?_ (colorScan_fold_max_ge grid gw color t _)
  unfold colorScanUpd
  simp only [hc, if_true]
  split <;> omega

theorem colorScan_fold_count_mem (grid : List ℕ) (gw color : ℕ)
    (l : List Pos) (st : ℕ × ℕ × ℕ) (p : Pos) (hmem : p ∈ l)
    (hc : gridGet grid gw p = color) :
    1 ≤ (l.foldl (colorScanUpd grid gw color) st).2.2 := by
  obtain ⟨s, t, rfl⟩ := List.append_of_mem hmem
  rw [List.foldl_append, List.foldl_cons]
  refine le_trans ?_ (colorScan_fold_count_ge grid gw color t _)
  unfold colorScanUpd
  simp only [hc, if_true]
  omega

theorem colorScan_fold_max_le (grid : List ℕ) (gw color B : ℕ) :
    ∀ (l : List Pos), (∀ p ∈ l, p.1 ≤ B) → ∀ (st : ℕ × ℕ × ℕ), st.2.1 ≤ B →
      (l.foldl (colorScanUpd grid gw color) st).2.1 ≤ B := by
  intro l
  induction l with
  | nil => intro _ st h; exact h
  | cons a t ih =>
      intro hl st hst
      rw [List.foldl_cons]
      refine ih (fun p hp => hl p (by simp [hp])) _ ?_
      unfold colorScanUpd
      by_cases h : gridGet grid gw a = color
      · simp only [h, if_true]
        have := hl a (by simp)
        split <;> omega
      · simp [h, hst]

/-- Claim C6: on a grid of width at least 2, a color occupying some cell in
column 0 and some cell in column gw - 1 is awarded all three edge bonuses of
the reach term simultaneously: the flat both-edges bonus 5.0 * 0.75, the
left-edge bonus ratio * (5.0 * 0.125) and the right-edge bonus
ratio * (5.0 * 0.125), plus (ratio - 1/2) * 5.0 whenever ratio exceeds 1/2,
where ratio = (gw - 1) / gw. -/
theorem c6_reach_bonus_both_edges (grid : List ℕ) (gw gh c : ℕ) (hgw : 2 ≤ gw)
    (h0 : ∃ y, y < gh ∧ gridGet grid gw (0, y) = c)
    (h1 : ∃ y, y < gh ∧ gridGet grid gw (gw - 1, y) = c) :
    colorReachTerm grid gw gh 5.0 c =
      (if 1 / 2 < ((gw : ℚ) - 1) / (gw : ℚ) then
        (((gw : ℚ) - 1) / (gw : ℚ) - 1 / 2) * 5.0 else 0)
        + 5.0 * 0.75
        + ((gw : ℚ) - 1) / (gw : ℚ) * (5.0 * 0.125)
        + ((gw : ℚ) - 1) / (gw : ℚ) * (5.0 * 0.125) := by
  obtain ⟨ya, hya, hca⟩ := h0
  obtain ⟨yb, hyb, hcb⟩ := h1
  have hmem0 : ((0, ya) : Pos) ∈ allCellsList gw gh :=
    (mem_allCellsList gw gh (0, ya)).mpr ⟨by omega, hya⟩
  have hmem1 : ((gw - 1, yb) : Pos) ∈ allCellsList gw gh :=
    (mem_allCellsList gw gh (gw - 1, yb)).mpr ⟨by omega, hyb⟩
  have hminle : (colorScan grid gw gh c).1 ≤ 0 :=
    colorScan_fold_min_mem grid gw c (allCellsList gw gh) (gw, 0, 0) (0, ya) hmem0 hca
  have hmin : (colorScan grid gw gh c).1 = 0 := by omega
  have hmaxge : gw - 1 ≤ (colorScan grid gw gh c).2.1 :=
    colorScan_fold_max_mem grid gw c (allCellsList gw gh) (gw, 0, 0) (gw - 1, yb) hmem1 hcb
  have hmaxle : (colorScan grid gw gh c).2.1 ≤ gw - 1 := by
    refine colorScan_fold_max_le grid gw c (gw - 1) (allCellsList gw gh) ?_ (gw, 0, 0) ?_
    · intro p hp
      have := (mem_allCellsList gw gh p).mp hp
      omega
    · show (0 : ℕ) ≤ gw - 1
      omega
  have hmax : (colorScan grid gw gh c).2.1 = gw - 1 := le_antisymm hmaxle hmaxge
  have hcnt : 1 ≤ (colorScan grid gw gh c).2.2 :=
    colorScan_fold_count_mem grid gw c (allCellsList gw gh) (gw, 0, 0) (0, ya) hmem0 hca
  have hguard2 : ¬((colorScan grid gw gh c).2.2 = 0 ∨ gw - 1 ≤ 0) := by omega
  have hcast : (((gw - 1 : ℕ)) : ℚ) = (gw : ℚ) - 1 := by
    rw [Nat.cast_sub (by omega : 1 ≤ gw)]
    norm_num
  simp only [colorReachTerm, hmin, hmax, Nat.sub_zero, hcast]
  rw [if_neg hguard2]
  norm_num

theorem c6_witness :
    (2 : ℕ) ≤ 2 ∧
      colorReachTerm [1, 1] 2 1 5.0 1 =
        (if 1 / 2 < (((2 : ℕ) : ℚ) - 1) / ((2 : ℕ) : ℚ) then
          ((((2 : ℕ) : ℚ) - 1) / ((2 : ℕ) : ℚ) - 1 / 2) * 5.0 else 0)
          + 5.0 * 0.75
          + (((2 : ℕ) : ℚ) - 1) / ((2 : ℕ) : ℚ) * (5.0 * 0.125)
          + (((2 : ℕ) : ℚ) - 1) / ((2 : ℕ) : ℚ) * (5.0 * 0.125) :=
  ⟨le_refl 2,
   c6_reach_bonus_both_edges [1, 1] 2 1 1 (le_refl 2)
     ⟨0, by decide, by decide⟩ ⟨0, by decide, by decide⟩⟩

/-! ### The danger penalty -/

/-- Claim C8 (amended): the danger penalty accounts for an exact flat 100:
when the first grid's tallest column height is gh - 9 (inside the danger
zone) and the second's is gh - 10 (just below the threshold), for gh at
least 10, the two evaluator scores differ by the difference of all the
non-danger terms minus exactly 100; the difference is not in general
exactly 100, since the height, aggregate-height and bumpiness terms also
react to the extra row. -/
theorem c8_danger_penalty (g1 g2 : List ℕ) (gw gh pc : ℕ) (hgh : 10 ≤ gh)
    (h1 : maxColHeight g1 gw gh = gh - 9) (h2 : maxColHeight g2 gw gh = gh - 10) :
    evaluate g1 gw gh pc - evaluate g2 gw gh pc =
      evalCore g1 gw gh pc - evalCore g2 gw gh pc - 100.0 := by
  unfold evaluate
  rw [h1, h2]
  have c1 : gh - 10 < gh - 9 := by omega
  have c2 : ¬(gh - 10 < gh - 10) := by omega
  rw [if_pos c1, if_neg c2]
  ring

/-- Claim C8 counterexample: on the 2-by-10 grids that differ only in the
single grain making the first grid's tallest column reach the danger zone
(height 1 = gh - 9 versus height 0 = gh - 10), the evaluator scores differ
by -2103/20 = -105.15, not by exactly -100: the max-height, aggregate-height
and bumpiness terms change along with the danger term. -/
theorem c8_counterexample :
    c8grid1 = c8grid2.set 18 1 ∧
      maxColHeight c8grid1 2 10 = 10 - 9 ∧
      maxColHeight c8grid2 2 10 = 10 - 10 ∧
      evaluate c8grid1 2 10 0 - evaluate c8grid2 2 10 0 = -2103 / 20 ∧
      evaluate c8grid1 2 10 0 - evaluate c8grid2 2 10 0 ≠ -100.0 := by
  have hval1 : ∀ k, c8grid1.getD k 0 ≤ 1 := by
    intro k
    rw [List.getD_eq_getElem?_getD]
    cases hget : c8grid1[k]? with
    | none => simp
    | some v =>
        have hv := List.getElem?_mem hget
        unfold c8grid1 at hv
        rcases List.mem_or_eq_of_mem_set hv with hv' | hv'
        · have hz := List.eq_of_mem_replicate hv'
          simp [hget, hz]
        · simp [hget, hv']
  have hval2 : ∀ k, c8grid2.getD k 0 = 0 := by
    intro k
    rw [List.getD_eq_getElem?_getD]
    cases hget : c8grid2[k]? with
    | none => simp
    | some v =>
        have hv := List.getElem?_mem hget
        unfold c8grid2 at hv
        have hz := List.eq_of_mem_replicate hv
        simp [hget, hz]
  have hcount_stays : ∀ (g : List ℕ) (cc : ℕ),
      (∀ p : Pos, gridGet g 2 p ≠ cc) →
      ∀ (l : List Pos) (st : ℕ × ℕ × ℕ),
        (l.foldl (colorScanUpd g 2 cc) st).2.2 = st.2.2 := by
    intro g cc hg l
    induction l with
    | nil => intro st; rfl
    | cons a t ihl =>
        intro st
        rw [List.foldl_cons, ihl]
        unfold colorScanUpd
        rw [if_neg (hg a)]
  have ht1 : ∀ (q : ℚ) (i : ℕ), colorReachTerm c8grid1 2 10 q (i + 1) = 0 := by
    intro q i
    match i with
    | 0 => rfl
    | 1 => rfl
    | 2 => rfl
    | 3 => rfl
    | 4 => rfl
    | 5 => rfl
    | n + 6 =>
        unfold colorReachTerm
        rw [if_pos]
        left
        unfold colorScan
        rw [hcount_stays c8grid1 (n + 6 + 1) ?_ (allCellsList 2 10) (2, 0, 0)]
        intro p
        unfold gridGet
        have := hval1 (p.2 * 2 + p.1)
        omega
  have ht2 : ∀ (q : ℚ) (i : ℕ), colorReachTerm c8grid2 2 10 q (i + 1) = 0 := by
    intro q i
    match i with
    | 0 => rfl
    | 1 => rfl
    | 2 => rfl
    | 3 => rfl
    | 4 => rfl
    | 5 => rfl
    | n + 6 =>
        unfold colorReachTerm
        rw [if_pos]
        left
        unfold colorScan
        rw [hcount_stays c8grid2 (n + 6 + 1) ?_ (allCellsList 2 10) (2, 0, 0)]
        intro p
        unfold gridGet
        have := hval2 (p.2 * 2 + p.1)
        omega
  have hr1 : ∀ q : ℚ, color_reach_bonus c8grid1 2 10 q = 0 := by
    intro q
    unfold color_reach_bonus
    simp [List.range_succ, ht1]
  have hr2 : ∀ q : ℚ, color_reach_bonus c8grid2 2 10 q = 0 := by
    intro q
    unfold color_reach_bonus
    simp [List.range_succ, ht2]
  have he1 : evaluate c8grid1 2 10 0 = -2103 / 20 := by
    unfold evaluate evalCore
    norm_num [hr1, show count_spanning_clears c8grid1 2 10 = 0 from rfl,
      show holesCount c8grid1 2 10 = 0 from rfl,
      show maxColHeight c8grid1 2 10 = 1 from rfl,
      show aggHeight c8grid1 2 10 = 1 from rfl,
      show bumpiness c8grid1 2 10 = 1 from rfl,
      show hAdjCount c8grid1 2 10 = 0 from rfl,
      show vAdjCount c8grid1 2 10 = 0 from rfl,
      show same_color_proximity c8grid1 2 10 1 = 0 from rfl]
  have he2 : evaluate c8grid2 2 10 0 = 0 := by
    unfold evaluate evalCore
    norm_num [hr2, show count_spanning_clears c8grid2 2 10 = 0 from rfl,
      show holesCount c8grid2 2 10 = 0 from rfl,
      show maxColHeight c8grid2 2 10 = 0 from rfl,
      show aggHeight c8grid2 2 10 = 0 from rfl,
      show bumpiness c8grid2 2 10 = 0 from rfl,
      show hAdjCount c8grid2 2 10 = 0 from rfl,
      show vAdjCount c8grid2 2 10 = 0 from rfl,
      show same_color_proximity c8grid2 2 10 1 = 0 from rfl]
  refine ⟨rfl, by decide, by decide, ?_, ?_⟩
  · rw [he1, he2]
    norm_num
  · rw [he1, he2]
    norm_num

theorem c8_witness :
    ((10 : ℕ) ≤ 10 ∧ maxColHeight c8grid1 2 10 = 10 - 9 ∧
        maxColHeight c8grid2 2 10 = 10 - 10) ∧
      evaluate c8grid1 2 10 0 - evaluate c8grid2 2 10 0 =
        evalCore c8grid1 2 10 0 - evalCore c8grid2 2 10 0 - 100.0 :=
  ⟨⟨le_refl 10, by decide, by decide⟩,
   c8_danger_penalty c8grid1 c8grid2 2 10 0 (le_refl 10) (by decide) (by decide)⟩

end Setrix
